import Mathlib

/-!
Sliding max/min window of the pod autoscaler.

Shallow embedding of `pkg/controller/podautoscaler/aggregation/window.go`.

* Go `int` is the 64-bit two's-complement integer; it is embedded as `Int`, and the one
  subtraction whose operand is supplied by the caller (`index - w.Size()`) is reduced with
  `wrapInt`.  The sums `w.first + 1` and `w.first + w.length` are bounded by twice the length of
  the backing slice, which is far below `2^63` for any slice that `make` can allocate, so they
  are left unreduced.
* `int32` sample values are only compared and copied, never combined arithmetically; they are
  embedded as `Int`.
* A run-time panic (slice index out of range, integer division by zero) is the result `none`.
* The `for` loops take an iteration budget; exhausting the budget is also `none`, and the
  theorems below show that the budget passed by the callers is never exhausted.
* `float64` values are embedded exactly: a non-negative binary64 value is a pair `(m, e)`
  standing for `m * 2^e`, and `f64Div` rounds a quotient of naturals to the nearest binary64
  value, ties to even.  `NewTimeWindow` and `Duration.Seconds` are built on it.
-/

namespace aggregation

/-! ## Definitions -/

/-- Two's-complement reduction of a mathematical integer to a 64-bit Go `int`. -/
def wrapInt (x : Int) : Int := (x + 2 ^ 63) % 2 ^ 64 - 2 ^ 63

/-- The values representable as a Go `int`. -/
def isGoInt (x : Int) : Prop := -(2 ^ 63) ≤ x ∧ x < 2 ^ 63

instance (x : Int) : Decidable (isGoInt x) := by
  unfold isGoInt; exact inferInstance

/-- Source: `type entry struct { value int32; index int }`. -/
structure entry where
  value : Int
  index : Int
  deriving DecidableEq

/-- Source: `type window struct { valueList []entry; first, length int }`. -/
structure window where
  valueList : List entry
  first : Int
  length : Int
  deriving DecidableEq

/-- Source: `newWindow(size)`; `make([]entry, size)` is a slice of `size` zero entries
(`make` panics on a negative size, so the capacity ranges over `Nat`). -/
def newWindow (size : Nat) : window :=
  { valueList := List.replicate size { value := 0, index := 0 }, first := 0, length := 0 }

/-- Source: `window.Size`, the length of the backing slice. -/
def window.Size (w : window) : Int := (w.valueList.length : Int)

/-- Source: `window.index`, `i % w.Size()`.  Go's `%` truncates toward zero and panics on a
zero divisor. -/
def window.index (w : window) (i : Int) : Option Int :=
  if w.Size = 0 then none else some (Int.tmod i w.Size)

/-- Slice read `w.valueList[k]`; an index outside `[0, len)` panics. -/
def window.slot (w : window) (k : Int) : Option entry :=
  if k < 0 then none else w.valueList[k.toNat]?

/-- Slice write `w.valueList[k] = e`; an index outside `[0, len)` panics. -/
def window.store (w : window) (k : Int) (e : entry) : Option window :=
  if k < 0 ∨ w.Size ≤ k then none
  else some { w with valueList := w.valueList.set k.toNat e }

/-- The eviction loop of `Record`:
`for w.length > 0 && w.valueList[w.first].index <= index-w.Size() { ... }`.
The first argument is the iteration budget. -/
def window.evictLoop : Nat → window → Int → Option window
  | 0, _, _ => none
  | fuel + 1, w, index =>
    if w.length > 0 then
      match w.slot w.first with
      | none => none
      | some e =>
        if e.index ≤ wrapInt (index - w.Size) then
          match w.index (w.first + 1) with
          | none => none
          | some f => window.evictLoop fuel { w with first := f, length := w.length - 1 } index
        else some w
    else some w

/-- Source: `window.Record`.  The eviction loop decrements `length` in every iteration, so
`length + 1` iterations are budgeted. -/
def window.Record (w : window) (value : Int) (index : Int) : Option window :=
  match w.evictLoop (w.length.toNat + 1) index with
  | none => none
  | some w1 =>
    if w1.length < w1.Size then
      match w1.index (w1.first + w1.length) with
      | none => none
      | some k =>
        match w1.store k { value := value, index := index } with
        | none => none
        | some w2 => some { w2 with length := w2.length + 1 }
    else some w1

/-- The scan loop of `Max`: `for i := 1; i < w.length; i++ { ... }`.
The first argument is the iteration budget. -/
def window.maxLoop (w : window) : Nat → Int → Int → Option Int
  | 0, i, maxValue => if i < w.length then none else some maxValue
  | fuel + 1, i, maxValue =>
    if i < w.length then
      match w.index (w.first + i) with
      | none => none
      | some valueIndex =>
        match w.slot valueIndex with
        | none => none
        | some e =>
          window.maxLoop w fuel (i + 1) (if e.value > maxValue then e.value else maxValue)
    else some maxValue

/-- Source: `window.Max`. -/
def window.Max (w : window) : Option Int :=
  if w.length > 0 then
    match w.slot w.first with
    | none => none
    | some e => w.maxLoop w.length.toNat 1 e.value
  else some (-1)

/-- The scan loop of `Min`: `for i := 1; i < w.length; i++ { ... }`.
The first argument is the iteration budget. -/
def window.minLoop (w : window) : Nat → Int → Int → Option Int
  | 0, i, minValue => if i < w.length then none else some minValue
  | fuel + 1, i, minValue =>
    if i < w.length then
      match w.index (w.first + i) with
      | none => none
      | some valueIndex =>
        match w.slot valueIndex with
        | none => none
        | some e =>
          window.minLoop w fuel (i + 1) (if e.value < minValue then e.value else minValue)
    else some minValue

/-- Source: `window.Min`. -/
def window.Min (w : window) : Option Int :=
  if w.length > 0 then
    match w.slot w.first with
    | none => none
    | some e => w.minLoop w.length.toNat 1 e.value
  else some (-1)

/-- A sequence of `Record(value, index)` calls, issued in order; a panic aborts the run. -/
def recordAll : window → List (Int × Int) → Option window
  | w, [] => some w
  | w, (value, index) :: rest =>
    match w.Record value index with
    | none => none
    | some w1 => recordAll w1 rest

/-- Source: `type TimeWindow struct { window *window; granularity time.Duration }`.
A `time.Duration` is an `int64` count of nanoseconds. -/
structure TimeWindow where
  window : window
  granularity : Int
  deriving DecidableEq

/-- Scaled quotient `floor((a / b) / 2^e)` of two naturals: the integer part of the quotient
measured in units of `2^e`. -/
def mant (a b : Nat) (e : Int) : Nat := (a * 2 ^ (-e).toNat) / (b * 2 ^ e.toNat)

/-- Search upward for the binary64 exponent: the first `e` at which the scaled quotient fits in
53 bits. -/
def normUp (a b : Nat) : Nat → Int → Int
  | 0, e => e
  | fuel + 1, e => if mant a b e < 2 ^ 53 then e else normUp a b fuel (e + 1)

/-- Search downward for the binary64 exponent: the first `e` at which the scaled quotient has
its 53rd bit set, stopping at the subnormal exponent `-1074`. -/
def normDown (a b : Nat) : Nat → Int → Int
  | 0, e => e
  | fuel + 1, e => if 2 ^ 52 ≤ mant a b e ∨ e ≤ -1074 then e else normDown a b fuel (e - 1)

/-- The binary64 exponent of the quotient `a / b`: the unit `2^e` in which the quotient has a
53-bit integer part (or `e = -1074` for a subnormal quotient). -/
def expOf (a b : Nat) : Int :=
  if mant a b 0 < 2 ^ 53 then normDown a b 1100 0 else normUp a b 1100 1

/-- The quotient `a / b` in units of `2^e`, rounded to the nearest integer, ties to even. -/
def roundAt (a b : Nat) (e : Int) : Nat :=
  if 2 * ((a * 2 ^ (-e).toNat) % (b * 2 ^ e.toNat)) < b * 2 ^ e.toNat then mant a b e
  else if b * 2 ^ e.toNat < 2 * ((a * 2 ^ (-e).toNat) % (b * 2 ^ e.toNat)) then mant a b e + 1
  else if mant a b e % 2 = 0 then mant a b e
  else mant a b e + 1

/-- IEEE-754 binary64 division of non-negative operands given as the exact quotient `a / b` of
two naturals (`b > 0`): the binary64 value nearest to `a / b`, ties to even, returned as the
pair `(m, e)` that stands for `m * 2^e`.  Quotients of `2^1024` and more, which overflow to
infinity, are not formed by the embedded code. -/
def f64Div (a b : Nat) : Nat × Int :=
  if a = 0 then (0, 0) else (roundAt a b (expOf a b), expOf a b)

/-- Conversion `int(x)` of a non-negative binary64 value `m * 2^e`: truncation. -/
def f64Trunc (x : Nat × Int) : Nat := (x.1 * 2 ^ x.2.toNat) / 2 ^ (-x.2).toNat

/-- `math.Ceil(x)` of a non-negative binary64 value `m * 2^e`, as a natural number. -/
def f64Ceil (x : Nat × Int) : Nat :=
  (x.1 * 2 ^ x.2.toNat + (2 ^ (-x.2).toNat - 1)) / 2 ^ (-x.2).toNat

/-- Conversion `float64(n)` of a non-negative integer: the nearest binary64 value, which is
again an integer. -/
def f64OfNat (n : Nat) : Nat := f64Trunc (f64Div n 1)

/-- `int(d.Seconds())` for a non-negative duration of `n` nanoseconds.  Source (package `time`):
`sec := d / Second; nsec := d % Second; return float64(sec) + float64(nsec)/1e9`.  The
quotient `float64(nsec)/1e9` is the binary64 value `m * 2^e`; the sum is the binary64 value
nearest to `(float64(sec) * 2^(-e) + m) / 2^(-e)`; the conversion to `int` truncates. -/
def secondsNat (n : Nat) : Nat :=
  f64Trunc (f64Div
    (f64OfNat (n / 1000000000) * 2 ^ (-(f64Div (f64OfNat (n % 1000000000)) 1000000000).2).toNat
      + (f64Div (f64OfNat (n % 1000000000)) 1000000000).1
        * 2 ^ (f64Div (f64OfNat (n % 1000000000)) 1000000000).2.toNat)
    (2 ^ (-(f64Div (f64OfNat (n % 1000000000)) 1000000000).2).toNat))

/-- The divisor `int(t.granularity.Seconds())` of `TimeWindow.Record`, for a `time.Duration` of
`d` nanoseconds.  Go's `/` and `%` truncate toward zero and binary64 arithmetic is symmetric in
the sign, so a negative duration gives the negated result of its absolute value.  A
`time.Duration` is an `int64`; on the integers outside that range, which no duration holds,
the function is continued by the truncated quotient. -/
def secondsInt (d : Int) : Int :=
  if isGoInt d then
    if 0 ≤ d then (secondsNat d.toNat : Int) else -(secondsNat (-d).toNat : Int)
  else Int.tdiv d 1000000000

/-- The first statement of `TimeWindow.Record`:
`index := int(now.Unix()) / int(t.granularity.Seconds())`, with the timestamp given by its
Unix time in seconds.  Go's `/` truncates toward zero and panics on a zero divisor. -/
def TimeWindow.bucketIndex (t : TimeWindow) (nowUnix : Int) : Option Int :=
  if secondsInt t.granularity = 0 then none
  else some (wrapInt (Int.tdiv nowUnix (secondsInt t.granularity)))

/-- Source: `TimeWindow.Record`. -/
def TimeWindow.Record (t : TimeWindow) (nowUnix : Int) (value : Int) : Option TimeWindow :=
  match t.bucketIndex nowUnix with
  | none => none
  | some index =>
    match t.window.Record value index with
    | none => none
    | some w => some { t with window := w }

/-- Source: `TimeWindow.Max`. -/
def TimeWindow.Max (t : TimeWindow) : Option Int := t.window.Max

/-- Source: `TimeWindow.Min`. -/
def TimeWindow.Min (t : TimeWindow) : Option Int := t.window.Min

/-- The bucket index as the specification words it,
`floor(now_in_seconds / granularity_in_seconds)`, for a positive granularity given in
nanoseconds: the quotient is `now * 10^9 / granularity`, and `/` on `Int` rounds down. -/
def specBucketIndex (nowUnix : Int) (granularity : Int) : Int :=
  (nowUnix * 1000000000) / granularity

/-- Structural invariant of the circular buffer. -/
def window.wf (w : window) : Prop :=
  0 ≤ w.first ∧ 0 ≤ w.length ∧ w.length ≤ w.Size ∧ (w.valueList ≠ [] → w.first < w.Size)

/-- The occupied run of the circular buffer, oldest entry first: the slots
`(first + i) mod size` for `0 ≤ i < length`. -/
def window.occupied (w : window) : List entry :=
  (List.range w.length.toNat).map
    (fun i => w.valueList.getD ((w.first.toNat + i) % w.valueList.length) ⟨0, 0⟩)

/-- The eviction test of `Record`, as a predicate on entries: `e.index <= index - size`
in Go `int` arithmetic. -/
def tooOld (index : Int) (size : Int) (e : entry) : Bool :=
  decide (e.index ≤ wrapInt (index - size))

/-- The list reading of `Record`: drop the longest prefix of entries that are too old, then
append the new entry when fewer than `size` entries remain. -/
def listRecord (size : Int) (value index : Int) (L : List entry) : List entry :=
  if ((L.dropWhile (tooOld index size)).length : Int) < size then
    L.dropWhile (tooOld index size) ++ [{ value := value, index := index }]
  else L.dropWhile (tooOld index size)

/-- One step of the scan of `Max`: keep the larger of the running maximum and the entry. -/
def maxStep (acc : Int) (e : entry) : Int := if e.value > acc then e.value else acc

/-- One step of the scan of `Min`: keep the smaller of the running minimum and the entry. -/
def minStep (acc : Int) (e : entry) : Int := if e.value < acc then e.value else acc

/-- The scan of `Max` read on the list of occupied entries (`-1` on the empty list). -/
def scanMax : List entry → Int
  | [] => -1
  | e :: rest => rest.foldl maxStep e.value

/-- The scan of `Min` read on the list of occupied entries (`-1` on the empty list). -/
def scanMin : List entry → Int
  | [] => -1
  | e :: rest => rest.foldl minStep e.value

/-- The number `m` is the greatest element of the list `l`. -/
def isMaxOf (m : Int) (l : List Int) : Prop := m ∈ l ∧ ∀ x ∈ l, x ≤ m

/-- The number `m` is the least element of the list `l`. -/
def isMinOf (m : Int) (l : List Int) : Prop := m ∈ l ∧ ∀ x ∈ l, m ≤ x

/-- The window states reachable from `newWindow` by `Record` calls that return. -/
inductive Reachable : window → Prop
  | init (size : Nat) : Reachable (newWindow size)
  | record (w w1 : window) (value index : Int) :
      Reachable w → w.Record value index = some w1 → Reachable w1

/-- A recorded `(value, index)` pair as a buffer entry. -/
def toEntry (c : Int × Int) : entry := { value := c.1, index := c.2 }

/-- The values of the recorded pairs whose index lies in `[cur - N + 1, cur]`. -/
def windowValues (N : Nat) (cur : Int) (recorded : List (Int × Int)) : List Int :=
  (recorded.filter (fun c => decide (cur - (N : Int) + 1 ≤ c.2 ∧ c.2 ≤ cur))).map Prod.fst

/-- Sliding correctness of a run: after each `Record(value, index)` of the sequence `calls`
issued on `newWindow(N)`, `Max()` is the greatest and `Min()` the least of the values recorded
so far whose index lies in `[index - N + 1, index]`. -/
def slidingCorrect (N : Nat) (calls : List (Int × Int)) : Prop :=
  ∀ pre value index rest, calls = pre ++ (value, index) :: rest →
    ∃ w mx mn, recordAll (newWindow N) (pre ++ [(value, index)]) = some w ∧
      w.Max = some mx ∧ w.Min = some mn ∧
      isMaxOf mx (windowValues N index (pre ++ [(value, index)])) ∧
      isMinOf mn (windowValues N index (pre ++ [(value, index)]))

/-- A two-slot window holding the entries `(5, 0)` and `(9, 1)`. -/
def sampleWindow : window :=
  { valueList := [{ value := 5, index := 0 }, { value := 9, index := 1 }], first := 0, length := 2 }

/-- One call on a window: `Record(value, index)`, `Max()` or `Min()`. -/
inductive op where
  | record (value index : Int)
  | max
  | min
  deriving DecidableEq

/-- A sequence of `Record`, `Max` and `Min` calls, issued in order; a panic in any call aborts
the run.  `Max` and `Min` leave the window as it is. -/
def runOps : window → List op → Option window
  | w, [] => some w
  | w, op.record value index :: rest =>
    match w.Record value index with
    | none => none
    | some w1 => runOps w1 rest
  | w, op.max :: rest =>
    match w.Max with
    | none => none
    | some _ => runOps w rest
  | w, op.min :: rest =>
    match w.Min with
    | none => none
    | some _ => runOps w rest

/-- Source: `NewTimeWindow`,
`buckets := int(math.Ceil(float64(duration) / float64(granularity)))` followed by
`newWindow(buckets)`, for durations given in nanoseconds.  The conversions and the division are
the binary64 ones.  A non-negative quotient is rounded up; the conversion to `int` is only
defined below `2^63`.  A negative quotient is rounded toward zero, and `make` panics on a
negative size.  With `granularity = 0` the quotient is infinite or not a number and its
conversion to `int` depends on the platform (on amd64 it is the least `int`, on which `make`
panics); the result is `none`. -/
def NewTimeWindow (duration granularity : Int) : Option TimeWindow :=
  if granularity = 0 then none
  else if (0 ≤ duration ∧ 0 < granularity) ∨ (duration ≤ 0 ∧ granularity < 0) then
    if (f64Ceil (f64Div (f64OfNat duration.natAbs) (f64OfNat granularity.natAbs)) : Int)
        < 2 ^ 63 then
      some { window := newWindow
               (f64Ceil (f64Div (f64OfNat duration.natAbs) (f64OfNat granularity.natAbs))),
             granularity := granularity }
    else none
  else
    if f64Trunc (f64Div (f64OfNat duration.natAbs) (f64OfNat granularity.natAbs)) = 0 then
      some { window := newWindow 0, granularity := granularity }
    else none

/-- The capacity as the specification words it, `ceil(duration / granularity)`, the exact
ceiling of the quotient of the two durations, for a positive granularity: `/` on `Int` rounds
down, so the ceiling is `-((-duration) / granularity)`. -/
def specBuckets (duration granularity : Int) : Int := -((-duration) / granularity)

/-- The list model of `Record` in the words of the specification: remove from `L` its longest
leading run of entries with `entry.index ≤ index - size`, the difference taken in the integers,
and append the new entry when fewer than `size` entries remain. -/
def specRecord (size : Int) (value index : Int) (L : List entry) : List entry :=
  if ((L.dropWhile (fun e => decide (e.index ≤ index - size))).length : Int) < size then
    L.dropWhile (fun e => decide (e.index ≤ index - size)) ++ [{ value := value, index := index }]
  else L.dropWhile (fun e => decide (e.index ≤ index - size))

/-! ## Theorems -/

theorem wf_newWindow (size : Nat) : (newWindow size).wf := by
  refine ⟨le_refl _, le_refl _, ?_, ?_⟩
  · simp [newWindow, window.Size]
  · intro h
    have : size ≠ 0 := by
      intro h0; apply h; simp [newWindow, h0]
    simp [newWindow, window.Size]; omega

theorem wf_nat {w : window} (h : w.wf) :
    ∃ f n : Nat, w = ⟨w.valueList, (f : Int), (n : Int)⟩ ∧ n ≤ w.valueList.length ∧
      (w.valueList ≠ [] → f < w.valueList.length) := by
  obtain ⟨h1, h2, h3, h4⟩ := h
  refine ⟨w.first.toNat, w.length.toNat, ?_, ?_, ?_⟩
  · cases w; simp at h1 h2 ⊢; omega
  · simp [window.Size] at h3; omega
  · intro hne; have := h4 hne; simp [window.Size] at this; omega

theorem wf_of_nat (vl : List entry) (f n : Nat) (hn : n ≤ vl.length)
    (hf : vl ≠ [] → f < vl.length) : (⟨vl, (f : Int), (n : Int)⟩ : window).wf := by
  refine ⟨by simp, by simp, by simp [window.Size]; exact hn, ?_⟩
  intro h; simp [window.Size]; exact hf h

theorem slot_nat (vl : List entry) (a b : Int) (k : Nat) :
    (⟨vl, a, b⟩ : window).slot (k : Int) = vl[k]? := by
  simp [window.slot]

theorem index_nat (vl : List entry) (a b : Int) (i : Nat) (hs : vl ≠ []) :
    (⟨vl, a, b⟩ : window).index (i : Int) = some ((i % vl.length : Nat) : Int) := by
  have : vl.length ≠ 0 := by simpa using hs
  simp only [window.index, window.Size, Int.ofNat_tmod]
  simp [this]

theorem occupied_nat (vl : List entry) (f n : Nat) :
    (⟨vl, (f : Int), (n : Int)⟩ : window).occupied =
      (List.range n).map (fun i => vl.getD ((f + i) % vl.length) ⟨0, 0⟩) := by
  simp [window.occupied]

theorem occupied_length (w : window) : w.occupied.length = w.length.toNat := by
  simp [window.occupied]

theorem occupied_cons (vl : List entry) (f m : Nat) (hf : f < vl.length) :
    (⟨vl, (f : Int), ((m + 1 : Nat) : Int)⟩ : window).occupied =
      vl.getD f ⟨0, 0⟩ :: (⟨vl, (((f + 1) % vl.length : Nat) : Int), (m : Int)⟩ : window).occupied := by
  rw [occupied_nat, occupied_nat, List.range_succ_eq_map, List.map_cons, List.map_map]
  congr 1
  · simp [Nat.mod_eq_of_lt hf]
  · apply List.map_congr_left
    intro i _
    simp only [Function.comp]
    congr 1
    rw [Nat.mod_add_mod]; congr 1; omega

theorem evictLoop_nat (vl : List entry) (index : Int) :
    ∀ (fuel f n : Nat), f < vl.length → n < fuel →
      ∃ f' n' : Nat, window.evictLoop fuel ⟨vl, (f : Int), (n : Int)⟩ index
          = some ⟨vl, (f' : Int), (n' : Int)⟩ ∧ f' < vl.length ∧ n' ≤ n ∧
        (⟨vl, (f' : Int), (n' : Int)⟩ : window).occupied =
          ((⟨vl, (f : Int), (n : Int)⟩ : window).occupied).dropWhile
            (tooOld index vl.length) := by
  intro fuel
  induction fuel with
  | zero => intro f n _ h; omega
  | succ fuel ih =>
    intro f n hf hn
    have hs : vl ≠ [] := by
      intro h; simp [h] at hf
    cases n with
    | zero =>
      refine ⟨f, 0, ?_, hf, le_refl _, ?_⟩
      · simp [window.evictLoop]
      · simp [window.occupied]
    | succ m =>
      have hlen : ((⟨vl, (f : Int), ((m + 1 : Nat) : Int)⟩ : window).length > 0) := by
        simp
      have hslot : (⟨vl, (f : Int), ((m + 1 : Nat) : Int)⟩ : window).slot (f : Int)
          = some (vl.getD f ⟨0, 0⟩) := by
        rw [slot_nat]; simp [List.getD_eq_getElem?_getD, List.getElem?_eq_getElem hf]
      rw [occupied_cons vl f m hf]
      by_cases hp : (vl.getD f ⟨0, 0⟩).index ≤ wrapInt (index - (vl.length : Int))
      · obtain ⟨f', n', h1, h2, h3, h4⟩ :=
          ih ((f + 1) % vl.length) m (Nat.mod_lt _ (by omega)) (by omega)
        refine ⟨f', n', ?_, h2, by omega, ?_⟩
        · have hidx : (⟨vl, (f : Int), ((m + 1 : Nat) : Int)⟩ : window).index ((f : Int) + 1)
              = some (((f + 1) % vl.length : Nat) : Int) := by
            have := index_nat vl (f : Int) ((m + 1 : Nat) : Int) (f + 1) hs
            simpa using this
          rw [window.evictLoop, if_pos hlen]
          simp only [hslot, window.Size, hp, if_true, hidx]
          rw [← h1]; congr 2; simp
        · rw [h4, List.dropWhile_cons_of_pos]
          simpa [tooOld] using hp
      · refine ⟨f, m + 1, ?_, hf, le_refl _, ?_⟩
        · rw [window.evictLoop, if_pos hlen]
          simp only [hslot, window.Size, hp, if_false]
        · rw [List.dropWhile_cons_of_neg (by simpa [tooOld] using hp)]
          exact occupied_cons vl f m hf

theorem occupied_snoc (vl : List entry) (f n : Nat) (e : entry)
    (hn : n < vl.length) :
    (⟨vl.set ((f + n) % vl.length) e, (f : Int), ((n + 1 : Nat) : Int)⟩ : window).occupied =
      (⟨vl, (f : Int), (n : Int)⟩ : window).occupied ++ [e] := by
  rw [occupied_nat, occupied_nat, List.range_succ, List.map_append]
  have hlt : (f + n) % vl.length < vl.length := Nat.mod_lt _ (by omega)
  congr 1
  · apply List.map_congr_left
    intro i hi
    simp only [List.mem_range] at hi
    simp only [List.length_set]
    have hne : (f + n) % vl.length ≠ (f + i) % vl.length := by
      intro h
      have h1 : n % vl.length = i % vl.length := Nat.ModEq.add_left_cancel' f h
      rw [Nat.mod_eq_of_lt hn, Nat.mod_eq_of_lt (by omega)] at h1
      omega
    simp [List.getD_eq_getElem?_getD, List.getElem?_set, hne]
  · simp [List.getD_eq_getElem?_getD, List.getElem?_set, hlt]

theorem Record_nat (vl : List entry) (f n : Nat) (hf : f < vl.length) (hn : n ≤ vl.length)
    (value index : Int) :
    ∃ w' : window, window.Record ⟨vl, (f : Int), (n : Int)⟩ value index = some w' ∧ w'.wf ∧
      w'.Size = (vl.length : Int) ∧
      w'.occupied = listRecord vl.length value index (⟨vl, (f : Int), (n : Int)⟩ : window).occupied := by
  have hs : vl ≠ [] := by
    intro h; simp [h] at hf
  obtain ⟨f', n', h1, h2, h3, h4⟩ := evictLoop_nat vl index (n + 1) f n hf (by omega)
  have hlen' : (List.dropWhile (tooOld index vl.length)
      (⟨vl, (f : Int), (n : Int)⟩ : window).occupied).length = n' := by
    rw [← h4, occupied_length]; simp
  have hE : window.evictLoop ((⟨vl, (f : Int), (n : Int)⟩ : window).length.toNat + 1)
      ⟨vl, (f : Int), (n : Int)⟩ index = some ⟨vl, (f' : Int), (n' : Int)⟩ := by
    simpa using h1
  unfold listRecord
  rw [hlen']
  by_cases hlt : n' < vl.length
  · have hidx : (⟨vl, (f' : Int), (n' : Int)⟩ : window).index ((f' : Int) + (n' : Int))
        = some (((f' + n') % vl.length : Nat) : Int) := by
      have := index_nat vl (f' : Int) (n' : Int) (f' + n') hs
      simpa using this
    have hmod : (f' + n') % vl.length < vl.length := Nat.mod_lt _ (by omega)
    refine ⟨⟨vl.set ((f' + n') % vl.length) ⟨value, index⟩, (f' : Int), ((n' + 1 : Nat) : Int)⟩,
      ?_, ?_, ?_, ?_⟩
    · rw [window.Record, hE]
      have hc : (n' : Int) < (vl.length : Int) := by exact_mod_cast hlt
      simp only [window.Size, hc, if_true, hidx, window.store]
      have hnot : ¬ ((((f' + n') % vl.length : Nat) : Int) < 0 ∨
          (vl.length : Int) ≤ (((f' + n') % vl.length : Nat) : Int)) := by
        omega
      rw [if_neg hnot, Int.toNat_ofNat]
      simp
    · apply wf_of_nat
      · simp; omega
      · intro _; simpa using h2
    · simp [window.Size]
    · have hc : (n' : Int) < (vl.length : Int) := by exact_mod_cast hlt
      rw [if_pos hc, occupied_snoc vl f' n' _ hlt, h4]
  · refine ⟨⟨vl, (f' : Int), (n' : Int)⟩, ?_, ?_, ?_, ?_⟩
    · rw [window.Record, hE]
      have hc : ¬ (n' : Int) < (vl.length : Int) := by exact_mod_cast hlt
      simp only [window.Size, hc, if_false]
    · exact wf_of_nat vl f' n' (by omega) (fun _ => h2)
    · simp [window.Size]
    · have hc : ¬ (n' : Int) < (vl.length : Int) := by exact_mod_cast hlt
      rw [if_neg hc, h4]

theorem Record_spec (w : window) (hwf : w.wf) (value index : Int) :
    ∃ w' : window, w.Record value index = some w' ∧ w'.wf ∧ w'.Size = w.Size ∧
      w'.occupied = listRecord w.Size value index w.occupied := by
  obtain ⟨f, n, hw, hn, hf⟩ := wf_nat hwf
  by_cases hs : w.valueList = []
  · have hn0 : n = 0 := by simp [hs] at hn; exact hn
    subst hn0
    refine ⟨w, ?_, hwf, rfl, ?_⟩
    · rw [hw]
      simp [window.Record, window.evictLoop, window.Size, hs]
    · rw [hw]
      simp [listRecord, window.occupied, window.Size, hs]
  · have := Record_nat w.valueList f n (hf hs) hn value index
    rw [← hw] at this
    exact this

theorem occupied_drop (vl : List entry) (f n i : Nat) (hi : i < n) :
    ((⟨vl, (f : Int), (n : Int)⟩ : window).occupied).drop i =
      vl.getD ((f + i) % vl.length) ⟨0, 0⟩ ::
        ((⟨vl, (f : Int), (n : Int)⟩ : window).occupied).drop (i + 1) := by
  have hlen : i < ((⟨vl, (f : Int), (n : Int)⟩ : window).occupied).length := by
    rw [occupied_length]; simpa using hi
  rw [List.drop_eq_getElem_cons hlen]
  congr 1
  simp [occupied_nat]

theorem maxLoop_nat (vl : List entry) (f n : Nat) (hs : vl ≠ []) :
    ∀ (fuel i : Nat) (acc : Int), i ≤ n → n - i ≤ fuel →
      window.maxLoop ⟨vl, (f : Int), (n : Int)⟩ fuel (i : Int) acc =
        some ((((⟨vl, (f : Int), (n : Int)⟩ : window).occupied).drop i).foldl maxStep acc) := by
  intro fuel
  induction fuel with
  | zero =>
    intro i acc h1 h2
    have hi : i = n := by omega
    subst hi
    have hd : ((⟨vl, (f : Int), (i : Int)⟩ : window).occupied).drop i = [] := by
      apply List.drop_eq_nil_of_le; rw [occupied_length]; simp
    simp [window.maxLoop, hd]
  | succ fuel ih =>
    intro i acc h1 h2
    by_cases hi : i < n
    · have hc : ((i : Int) < (⟨vl, (f : Int), (n : Int)⟩ : window).length) := by
        simpa using hi
      have hidx : (⟨vl, (f : Int), (n : Int)⟩ : window).index ((f : Int) + (i : Int))
          = some (((f + i) % vl.length : Nat) : Int) := by
        have := index_nat vl (f : Int) (n : Int) (f + i) hs
        simpa using this
      have hlt : (f + i) % vl.length < vl.length :=
        Nat.mod_lt _ (List.length_pos.mpr hs)
      have hslot : (⟨vl, (f : Int), (n : Int)⟩ : window).slot (((f + i) % vl.length : Nat) : Int)
          = some (vl.getD ((f + i) % vl.length) ⟨0, 0⟩) := by
        rw [slot_nat]; simp [List.getD_eq_getElem?_getD, List.getElem?_eq_getElem hlt]
      rw [window.maxLoop, if_pos hc]
      simp only [hidx, hslot]
      have := ih (i + 1) (maxStep acc (vl.getD ((f + i) % vl.length) ⟨0, 0⟩)) (by omega) (by omega)
      rw [occupied_drop vl f n i hi, List.foldl_cons, ← this]
      simp [maxStep]
    · have hi : i = n := by omega
      subst hi
      have hd : ((⟨vl, (f : Int), (i : Int)⟩ : window).occupied).drop i = [] := by
        apply List.drop_eq_nil_of_le; rw [occupied_length]; simp
      simp [window.maxLoop, hd]

theorem minLoop_nat (vl : List entry) (f n : Nat) (hs : vl ≠ []) :
    ∀ (fuel i : Nat) (acc : Int), i ≤ n → n - i ≤ fuel →
      window.minLoop ⟨vl, (f : Int), (n : Int)⟩ fuel (i : Int) acc =
        some ((((⟨vl, (f : Int), (n : Int)⟩ : window).occupied).drop i).foldl minStep acc) := by
  intro fuel
  induction fuel with
  | zero =>
    intro i acc h1 h2
    have hi : i = n := by omega
    subst hi
    have hd : ((⟨vl, (f : Int), (i : Int)⟩ : window).occupied).drop i = [] := by
      apply List.drop_eq_nil_of_le; rw [occupied_length]; simp
    simp [window.minLoop, hd]
  | succ fuel ih =>
    intro i acc h1 h2
    by_cases hi : i < n
    · have hc : ((i : Int) < (⟨vl, (f : Int), (n : Int)⟩ : window).length) := by
        simpa using hi
      have hidx : (⟨vl, (f : Int), (n : Int)⟩ : window).index ((f : Int) + (i : Int))
          = some (((f + i) % vl.length : Nat) : Int) := by
        have := index_nat vl (f : Int) (n : Int) (f + i) hs
        simpa using this
      have hlt : (f + i) % vl.length < vl.length :=
        Nat.mod_lt _ (List.length_pos.mpr hs)
      have hslot : (⟨vl, (f : Int), (n : Int)⟩ : window).slot (((f + i) % vl.length : Nat) : Int)
          = some (vl.getD ((f + i) % vl.length) ⟨0, 0⟩) := by
        rw [slot_nat]; simp [List.getD_eq_getElem?_getD, List.getElem?_eq_getElem hlt]
      rw [window.minLoop, if_pos hc]
      simp only [hidx, hslot]
      have := ih (i + 1) (minStep acc (vl.getD ((f + i) % vl.length) ⟨0, 0⟩)) (by omega) (by omega)
      rw [occupied_drop vl f n i hi, List.foldl_cons, ← this]
      simp [minStep]
    · have hi : i = n := by omega
      subst hi
      have hd : ((⟨vl, (f : Int), (i : Int)⟩ : window).occupied).drop i = [] := by
        apply List.drop_eq_nil_of_le; rw [occupied_length]; simp
      simp [window.minLoop, hd]

theorem Max_spec (w : window) (hwf : w.wf) : w.Max = some (scanMax w.occupied) := by
  obtain ⟨f, n, hw, hn, hf⟩ := wf_nat hwf
  rw [hw]
  cases n with
  | zero => simp [window.Max, window.occupied, scanMax]
  | succ m =>
    have hs : w.valueList ≠ [] := by
      intro h; simp [h] at hn
    have hf := hf hs
    have hslot : (⟨w.valueList, (f : Int), ((m + 1 : Nat) : Int)⟩ : window).slot (f : Int)
        = some (w.valueList.getD f ⟨0, 0⟩) := by
      rw [slot_nat]; simp [List.getD_eq_getElem?_getD, List.getElem?_eq_getElem hf]
    have hlen : ((⟨w.valueList, (f : Int), ((m + 1 : Nat) : Int)⟩ : window).length > 0) := by
      simp
    have hloop := maxLoop_nat w.valueList f (m + 1) hs (m + 1) 1
      (w.valueList.getD f ⟨0, 0⟩).value (by omega) (by omega)
    rw [window.Max, if_pos hlen]
    simp only [hslot]
    have hfuel : (⟨w.valueList, (f : Int), ((m + 1 : Nat) : Int)⟩ : window).length.toNat = m + 1 := by
      simp
    rw [hfuel]
    have h1 : ((1 : Nat) : Int) = 1 := rfl
    rw [h1] at hloop
    rw [hloop, occupied_cons w.valueList f m hf]
    simp [scanMax]

theorem Min_spec (w : window) (hwf : w.wf) : w.Min = some (scanMin w.occupied) := by
  obtain ⟨f, n, hw, hn, hf⟩ := wf_nat hwf
  rw [hw]
  cases n with
  | zero => simp [window.Min, window.occupied, scanMin]
  | succ m =>
    have hs : w.valueList ≠ [] := by
      intro h; simp [h] at hn
    have hf := hf hs
    have hslot : (⟨w.valueList, (f : Int), ((m + 1 : Nat) : Int)⟩ : window).slot (f : Int)
        = some (w.valueList.getD f ⟨0, 0⟩) := by
      rw [slot_nat]; simp [List.getD_eq_getElem?_getD, List.getElem?_eq_getElem hf]
    have hlen : ((⟨w.valueList, (f : Int), ((m + 1 : Nat) : Int)⟩ : window).length > 0) := by
      simp
    have hloop := minLoop_nat w.valueList f (m + 1) hs (m + 1) 1
      (w.valueList.getD f ⟨0, 0⟩).value (by omega) (by omega)
    rw [window.Min, if_pos hlen]
    simp only [hslot]
    have hfuel : (⟨w.valueList, (f : Int), ((m + 1 : Nat) : Int)⟩ : window).length.toNat = m + 1 := by
      simp
    rw [hfuel]
    have h1 : ((1 : Nat) : Int) = 1 := rfl
    rw [h1] at hloop
    rw [hloop, occupied_cons w.valueList f m hf]
    simp [scanMin]

theorem foldl_maxStep (rest : List entry) :
    ∀ acc : Int, (rest.foldl maxStep acc = acc ∨ rest.foldl maxStep acc ∈ rest.map entry.value) ∧
      acc ≤ rest.foldl maxStep acc ∧ ∀ x ∈ rest.map entry.value, x ≤ rest.foldl maxStep acc := by
  induction rest with
  | nil => intro acc; simp
  | cons e t ih =>
    intro acc
    obtain ⟨h1, h2, h3⟩ := ih (maxStep acc e)
    have hstep : maxStep acc e = acc ∧ e.value ≤ acc ∨ maxStep acc e = e.value ∧ acc ≤ e.value := by
      unfold maxStep
      by_cases h : e.value > acc
      · right; simp [h]; omega
      · left; simp [h]; omega
    simp only [List.foldl_cons, List.map_cons, List.mem_cons]
    refine ⟨?_, ?_, ?_⟩
    · rcases h1 with h1 | h1
      · rcases hstep with ⟨hs, _⟩ | ⟨hs, _⟩
        · left; rw [h1, hs]
        · right; left; rw [h1, hs]
      · right; right; exact h1
    · rcases hstep with ⟨hs, hle⟩ | ⟨hs, hle⟩ <;> omega
    · intro x hx
      rcases hx with hx | hx
      · subst hx
        rcases hstep with ⟨hs, hle⟩ | ⟨hs, hle⟩ <;> omega
      · exact h3 x hx

theorem foldl_minStep (rest : List entry) :
    ∀ acc : Int, (rest.foldl minStep acc = acc ∨ rest.foldl minStep acc ∈ rest.map entry.value) ∧
      rest.foldl minStep acc ≤ acc ∧ ∀ x ∈ rest.map entry.value, rest.foldl minStep acc ≤ x := by
  induction rest with
  | nil => intro acc; simp
  | cons e t ih =>
    intro acc
    obtain ⟨h1, h2, h3⟩ := ih (minStep acc e)
    have hstep : minStep acc e = acc ∧ acc ≤ e.value ∨ minStep acc e = e.value ∧ e.value ≤ acc := by
      unfold minStep
      by_cases h : e.value < acc
      · right; simp [h]; omega
      · left; simp [h]; omega
    simp only [List.foldl_cons, List.map_cons, List.mem_cons]
    refine ⟨?_, ?_, ?_⟩
    · rcases h1 with h1 | h1
      · rcases hstep with ⟨hs, _⟩ | ⟨hs, _⟩
        · left; rw [h1, hs]
        · right; left; rw [h1, hs]
      · right; right; exact h1
    · rcases hstep with ⟨hs, hle⟩ | ⟨hs, hle⟩ <;> omega
    · intro x hx
      rcases hx with hx | hx
      · subst hx
        rcases hstep with ⟨hs, hle⟩ | ⟨hs, hle⟩ <;> omega
      · exact h3 x hx

theorem scanMax_isMaxOf (L : List entry) (h : L ≠ []) :
    isMaxOf (scanMax L) (L.map entry.value) := by
  cases L with
  | nil => exact absurd rfl h
  | cons e rest =>
    obtain ⟨h1, h2, h3⟩ := foldl_maxStep rest e.value
    refine ⟨?_, ?_⟩
    · simp only [scanMax, List.map_cons, List.mem_cons]
      rcases h1 with h1 | h1
      · left; exact h1
      · right; exact h1
    · intro x hx
      simp only [List.map_cons, List.mem_cons] at hx
      rcases hx with hx | hx
      · subst hx; exact h2
      · exact h3 x hx

theorem scanMin_isMinOf (L : List entry) (h : L ≠ []) :
    isMinOf (scanMin L) (L.map entry.value) := by
  cases L with
  | nil => exact absurd rfl h
  | cons e rest =>
    obtain ⟨h1, h2, h3⟩ := foldl_minStep rest e.value
    refine ⟨?_, ?_⟩
    · simp only [scanMin, List.map_cons, List.mem_cons]
      rcases h1 with h1 | h1
      · left; exact h1
      · right; exact h1
    · intro x hx
      simp only [List.map_cons, List.mem_cons] at hx
      rcases hx with hx | hx
      · subst hx; exact h2
      · exact h3 x hx

theorem Reachable_wf {w : window} (h : Reachable w) : w.wf := by
  induction h with
  | init size => exact wf_newWindow size
  | record w w1 value index _ hrec ih =>
    obtain ⟨w2, h1, h2, _, _⟩ := Record_spec w ih value index
    rw [h1] at hrec
    cases hrec
    exact h2

theorem slot_occupied (w : window) (hwf : w.wf) (i : Nat) (hi : (i : Int) < w.length) :
    w.slot ((w.first + (i : Int)) % w.Size) = w.occupied[i]? := by
  obtain ⟨f, n, hw, hn, hf⟩ := wf_nat hwf
  have hin : i < n := by
    rw [hw] at hi; simpa using hi
  have hs : w.valueList ≠ [] := by
    intro h; simp [h] at hn; omega
  have hlt : (f + i) % w.valueList.length < w.valueList.length :=
    Nat.mod_lt _ (List.length_pos.mpr hs)
  have hcast : (((f : Int) + (i : Int)) % (w.valueList.length : Int)) =
      (((f + i) % w.valueList.length : Nat) : Int) := by
    push_cast; rfl
  rw [hw]
  simp only [window.Size]
  rw [hcast, slot_nat, occupied_nat]
  simp [List.getElem?_map, List.getElem?_range hin, List.getD_eq_getElem?_getD,
    List.getElem?_eq_getElem hlt]

theorem occupied_congr (w w1 : window) (hwf : w.wf) (hf : w1.first = w.first)
    (hl : w1.length = w.length) (hs : w1.Size = w.Size)
    (hslots : ∀ i : Int, 0 ≤ i → i < w.length →
      w1.slot ((w.first + i) % w.Size) = w.slot ((w.first + i) % w.Size)) :
    w1.wf ∧ w1.occupied = w.occupied := by
  have hwf1 : w1.wf := by
    obtain ⟨h1, h2, h3, h4⟩ := hwf
    refine ⟨by omega, by omega, by omega, ?_⟩
    intro hne
    have : w.valueList ≠ [] := by
      intro h
      apply hne
      have : w1.valueList.length = 0 := by
        simp only [window.Size, h, List.length_nil] at hs; exact_mod_cast hs
      exact List.length_eq_zero.mp this
    have := h4 this
    omega
  refine ⟨hwf1, ?_⟩
  apply List.ext_getElem?
  intro i
  by_cases hi : (i : Int) < w.length
  · rw [← slot_occupied w hwf i hi, ← slot_occupied w1 hwf1 i (by omega), hf, hs]
    exact hslots i (by omega) hi
  · have h1 : w.occupied.length ≤ i := by
      rw [occupied_length]; omega
    have h2 : w1.occupied.length ≤ i := by
      rw [occupied_length, hl]; omega
    rw [List.getElem?_eq_none h1, List.getElem?_eq_none h2]

theorem occupied_ne_nil (w : window) (h : 0 < w.length) : w.occupied ≠ [] := by
  intro hnil
  have := occupied_length w
  rw [hnil] at this
  simp at this
  omega

theorem recordAll_append (w : window) (xs ys : List (Int × Int)) :
    recordAll w (xs ++ ys) = (recordAll w xs).bind (fun w1 => recordAll w1 ys) := by
  induction xs generalizing w with
  | nil => simp [recordAll]
  | cons c rest ih =>
    obtain ⟨v, i⟩ := c
    simp only [List.cons_append, recordAll]
    cases h : w.Record v i with
    | none => simp
    | some w1 => simp [ih]

/-- C2: in every reachable window with `length > 0`, `Max()` returns the greatest and `Min()`
the least value among the occupied slots `(first + i) mod size`, `0 ≤ i < length`: each result is
the value of an occupied slot, bounds the value of every occupied slot, and is the same for any
window that agrees on `first`, `length`, `size` and the occupied slots (no other slot is read). -/
theorem C2_max_min_range_over_occupied_slots (w : window) (hr : Reachable w)
    (hlen : 0 < w.length) :
    ∃ mx mn : Int, w.Max = some mx ∧ w.Min = some mn ∧
      (∃ i : Int, 0 ≤ i ∧ i < w.length ∧
        ∃ e, w.slot ((w.first + i) % w.Size) = some e ∧ e.value = mx) ∧
      (∀ i : Int, 0 ≤ i → i < w.length →
        ∃ e, w.slot ((w.first + i) % w.Size) = some e ∧ e.value ≤ mx) ∧
      (∃ i : Int, 0 ≤ i ∧ i < w.length ∧
        ∃ e, w.slot ((w.first + i) % w.Size) = some e ∧ e.value = mn) ∧
      (∀ i : Int, 0 ≤ i → i < w.length →
        ∃ e, w.slot ((w.first + i) % w.Size) = some e ∧ mn ≤ e.value) ∧
      (∀ w1 : window, w1.first = w.first → w1.length = w.length → w1.Size = w.Size →
        (∀ i : Int, 0 ≤ i → i < w.length →
          w1.slot ((w.first + i) % w.Size) = w.slot ((w.first + i) % w.Size)) →
        w1.Max = some mx ∧ w1.Min = some mn) := by
  have hwf := Reachable_wf hr
  have hne := occupied_ne_nil w hlen
  obtain ⟨hmx1, hmx2⟩ := scanMax_isMaxOf w.occupied hne
  obtain ⟨hmn1, hmn2⟩ := scanMin_isMinOf w.occupied hne
  have hslot : ∀ i : Int, 0 ≤ i → i < w.length →
      ∃ e, w.slot ((w.first + i) % w.Size) = some e ∧ e ∈ w.occupied := by
    intro i h0 h1
    have hi : ((i.toNat : Nat) : Int) = i := Int.toNat_of_nonneg h0
    have hlt : i.toNat < w.occupied.length := by
      rw [occupied_length]; omega
    refine ⟨w.occupied[i.toNat], ?_, List.getElem_mem hlt⟩
    have := slot_occupied w hwf i.toNat (by omega)
    rw [hi] at this
    rw [this, List.getElem?_eq_getElem hlt]
  have hfind : ∀ x : Int, x ∈ w.occupied.map entry.value →
      ∃ i : Int, 0 ≤ i ∧ i < w.length ∧
        ∃ e, w.slot ((w.first + i) % w.Size) = some e ∧ e.value = x := by
    intro x hx
    obtain ⟨e, he, hev⟩ := List.mem_map.mp hx
    obtain ⟨k, hk, hke⟩ := List.getElem_of_mem he
    have hk' : (k : Int) < w.length := by
      rw [occupied_length] at hk; omega
    refine ⟨(k : Int), by omega, hk', e, ?_, hev⟩
    rw [slot_occupied w hwf k hk', List.getElem?_eq_getElem hk, hke]
  refine ⟨scanMax w.occupied, scanMin w.occupied, Max_spec w hwf, Min_spec w hwf,
    hfind _ hmx1, ?_, hfind _ hmn1, ?_, ?_⟩
  · intro i h0 h1
    obtain ⟨e, he, hmem⟩ := hslot i h0 h1
    exact ⟨e, he, hmx2 _ (List.mem_map_of_mem _ hmem)⟩
  · intro i h0 h1
    obtain ⟨e, he, hmem⟩ := hslot i h0 h1
    exact ⟨e, he, hmn2 _ (List.mem_map_of_mem _ hmem)⟩
  · intro w1 hf hl hs hslots
    obtain ⟨hwf1, hocc⟩ := occupied_congr w w1 hwf hf hl hs hslots
    rw [Max_spec w1 hwf1, Min_spec w1 hwf1, hocc]
    exact ⟨rfl, rfl⟩

theorem Record_full_unchanged (w : window) (value index : Int) (hfull : w.length = w.Size)
    (hold : ∃ e, w.slot w.first = some e ∧ wrapInt (index - w.Size) < e.index) :
    w.Record value index = some w := by
  obtain ⟨e, he, hidx⟩ := hold
  have hpos : w.length > 0 := by
    have : w.valueList ≠ [] := by
      intro h
      simp [window.slot, h] at he
    have := List.length_pos.mpr this
    rw [hfull]; simp only [window.Size]; omega
  have hE : w.evictLoop (w.length.toNat + 1) index = some w := by
    rw [window.evictLoop, if_pos hpos]
    simp only [he]
    rw [if_neg (by omega)]
  rw [window.Record, hE]
  simp only
  rw [if_neg (by omega)]

/-- C5: a window with `length = 0` answers `Max() = -1` and `Min() = -1`, whatever its buffer
and `first`; in particular the window returned by `newWindow(size)` does, for every size. -/
theorem C5_empty_window_sentinel (size : Nat) (valueList : List entry) (first : Int) :
    (newWindow size).Max = some (-1) ∧ (newWindow size).Min = some (-1) ∧
      (⟨valueList, first, 0⟩ : window).Max = some (-1) ∧
      (⟨valueList, first, 0⟩ : window).Min = some (-1) := by
  simp [window.Max, window.Min, newWindow]

/-- C6: on the empty window of any capacity `size ≥ 1`, `Record(v, i)` returns, for every
value and every index (negative ones included), a window with `Max() = v` and `Min() = v`. -/
theorem C6_single_insertion (size : Nat) (hsize : 1 ≤ size) (v i : Int) :
    ∃ w, (newWindow size).Record v i = some w ∧ w.Max = some v ∧ w.Min = some v := by
  obtain ⟨w, h1, h2, _, h4⟩ := Record_spec (newWindow size) (wf_newWindow size) v i
  have hocc : (newWindow size).occupied = [] := by
    simp [window.occupied, newWindow]
  have hsz : (newWindow size).Size = (size : Int) := by
    simp [window.Size, newWindow]
  rw [hocc, hsz] at h4
  have h5 : w.occupied = [{ value := v, index := i }] := by
    rw [h4]
    have : (0 : Int) < (size : Int) := by omega
    simp [listRecord, this]
  refine ⟨w, h1, ?_, ?_⟩
  · rw [Max_spec w h2, h5]; rfl
  · rw [Min_spec w h2, h5]; rfl

/-- C7: on `newWindow(0)` every finite sequence of `Record` calls, with arbitrary arguments,
returns without a panic and leaves the window empty: `length = 0`, `Max() = -1` and
`Min() = -1` after the calls (every prefix of a sequence is itself such a sequence, so this
covers the state after each call). -/
theorem C7_zero_capacity_stays_empty (calls : List (Int × Int)) :
    ∃ w, recordAll (newWindow 0) calls = some w ∧ w.length = 0 ∧
      w.Max = some (-1) ∧ w.Min = some (-1) := by
  refine ⟨newWindow 0, ?_, rfl, by decide, by decide⟩
  induction calls with
  | nil => rfl
  | cons c rest ih =>
    obtain ⟨v, i⟩ := c
    have : (newWindow 0).Record v i = some (newWindow 0) := by
      simp [window.Record, window.evictLoop, newWindow, window.Size]
    simp only [recordAll, this, ih]

theorem wrapInt_eq (x : Int) (h : isGoInt x) : wrapInt x = x := by
  obtain ⟨h1, h2⟩ := h
  unfold wrapInt
  omega

theorem dropWhile_sorted (L : List entry) (t : Int)
    (hs : L.Pairwise (fun a b => a.index < b.index)) :
    L.dropWhile (fun e => decide (e.index ≤ t)) = L.filter (fun e => decide (t < e.index)) := by
  induction L with
  | nil => rfl
  | cons e rest ih =>
    obtain ⟨h1, h2⟩ := List.pairwise_cons.mp hs
    by_cases hp : e.index ≤ t
    · rw [List.dropWhile_cons_of_pos (by simpa using hp), ih h2,
        List.filter_cons_of_neg (by simpa using hp)]
    · rw [List.dropWhile_cons_of_neg (by simpa using hp),
        List.filter_cons_of_pos (by simpa using hp)]
      congr 1
      symm
      rw [List.filter_eq_self]
      intro a ha
      have := h1 a ha
      simp only [decide_eq_true_eq]
      omega

theorem length_le_of_increasing (L : List entry) :
    ∀ a b : Int, a ≤ b → L.Pairwise (fun x y => x.index < y.index) →
      (∀ e ∈ L, a < e.index) → (∀ e ∈ L, e.index ≤ b) → (L.length : Int) ≤ b - a := by
  induction L with
  | nil => intro a b hab _ _ _; simp; omega
  | cons e rest ih =>
    intro a b _ hs hlo hhi
    obtain ⟨h1, h2⟩ := List.pairwise_cons.mp hs
    have hea := hlo e (List.mem_cons_self _ _)
    have heb := hhi e (List.mem_cons_self _ _)
    have := ih e.index b heb h2 (fun x hx => h1 x hx)
      (fun x hx => hhi x (List.mem_cons_of_mem _ hx))
    simp only [List.length_cons]
    push_cast
    omega

theorem slide_step (N : Nat) (hN : 1 ≤ N) (w : window) (hwf : w.wf) (hsz : w.Size = (N : Int))
    (H : List (Int × Int)) (cur : Int) (hH : H.Pairwise (fun a b => a.2 < b.2))
    (hcur : ∀ c ∈ H, c.2 ≤ cur)
    (hocc : w.occupied = (H.filter (fun c => decide (cur - (N : Int) < c.2))).map toEntry)
    (v i : Int) (hi : cur < i) (hnw : H ≠ [] → wrapInt (i - (N : Int)) = i - (N : Int)) :
    ∃ w1, w.Record v i = some w1 ∧ w1.wf ∧ w1.Size = (N : Int) ∧
      w1.occupied = ((H ++ [(v, i)]).filter (fun c => decide (i - (N : Int) < c.2))).map toEntry := by
  obtain ⟨w1, h1, h2, h3, h4⟩ := Record_spec w hwf v i
  refine ⟨w1, h1, h2, by rw [h3, hsz], ?_⟩
  have hsorted : w.occupied.Pairwise (fun a b => a.index < b.index) := by
    rw [hocc, List.pairwise_map]
    exact List.Pairwise.sublist (List.filter_sublist _) hH
  have hdrop : w.occupied.dropWhile (tooOld i (N : Int)) =
      (H.filter (fun c => decide (i - (N : Int) < c.2))).map toEntry := by
    by_cases hnil : H = []
    · rw [hocc, hnil]; rfl
    · have hfun : tooOld i (N : Int) = fun e => decide (e.index ≤ i - (N : Int)) := by
        funext e; simp [tooOld, hnw hnil]
      rw [hfun, dropWhile_sorted _ _ hsorted, hocc, List.filter_map, List.filter_filter]
      congr 1
      apply List.filter_congr
      intro c _
      simp only [Function.comp, toEntry, Bool.and_eq_true, decide_eq_true_eq]
      by_cases hc : i - (N : Int) < c.2
      · have : cur - (N : Int) < c.2 := by omega
        simp [hc, this]
      · simp [hc]
  have hlen : ((w.occupied.dropWhile (tooOld i (N : Int))).length : Int) < (N : Int) := by
    have hle := length_le_of_increasing (w.occupied.dropWhile (tooOld i (N : Int)))
      (i - (N : Int)) (i - 1) (by omega)
      (List.Pairwise.sublist (List.dropWhile_sublist _) hsorted)
      (by
        intro e he
        rw [hdrop] at he
        obtain ⟨c, hc, rfl⟩ := List.mem_map.mp he
        have := (List.mem_filter.mp hc).2
        simpa [toEntry] using this)
      (by
        intro e he
        rw [hdrop] at he
        obtain ⟨c, hc, rfl⟩ := List.mem_map.mp he
        have := hcur c (List.mem_filter.mp hc).1
        simp only [toEntry]
        omega)
    omega
  rw [h4, hsz, listRecord, if_pos hlen, hdrop, List.filter_append, List.map_append]
  congr 1
  have : i - (N : Int) < i := by omega
  simp [toEntry, this]

theorem slide_all (N : Nat) (hN : 1 ≤ N) (calls : List (Int × Int)) :
    calls ≠ [] → calls.Pairwise (fun a b => a.2 < b.2) →
    (∀ c ∈ calls.tail, wrapInt (c.2 - (N : Int)) = c.2 - (N : Int)) →
    ∃ w cur, recordAll (newWindow N) calls = some w ∧ w.wf ∧ w.Size = (N : Int) ∧
      (∃ pre v, calls = pre ++ [(v, cur)]) ∧
      w.occupied = (calls.filter (fun c => decide (cur - (N : Int) < c.2))).map toEntry := by
  induction calls using List.reverseRecOn with
  | nil => intro h; exact absurd rfl h
  | append_singleton H c ih =>
    obtain ⟨v, i⟩ := c
    intro _ hinc hnw
    by_cases hnil : H = []
    · subst hnil
      obtain ⟨w1, h1, h2, h3, h4⟩ := slide_step N hN (newWindow N) (wf_newWindow N)
        (by simp [window.Size, newWindow]) [] (i - 1) List.Pairwise.nil (by simp)
        (by simp [window.occupied, newWindow]) v i (by omega) (fun h => absurd rfl h)
      refine ⟨w1, i, ?_, h2, h3, ⟨[], v, rfl⟩, h4⟩
      simp [recordAll, h1]
    · have htail : (H ++ [(v, i)]).tail = H.tail ++ [(v, i)] :=
        List.tail_append_of_ne_nil hnil
      have hincH : H.Pairwise (fun a b => a.2 < b.2) := (List.pairwise_append.mp hinc).1
      obtain ⟨w0, cur, h1, h2, h3, ⟨pre, v0, hpre⟩, h5⟩ := ih hnil hincH
        (fun c hc => hnw c (by rw [htail]; exact List.mem_append_left _ hc))
      have hlast : (v0, cur) ∈ H := by rw [hpre]; simp
      have hcuri : cur < i := by
        have := (List.pairwise_append.mp hinc).2.2 (v0, cur) hlast (v, i) (by simp)
        exact this
      have hcur : ∀ c ∈ H, c.2 ≤ cur := by
        intro c hc
        rw [hpre] at hc hincH
        rcases List.mem_append.mp hc with hc | hc
        · have := (List.pairwise_append.mp hincH).2.2 c hc (v0, cur) (by simp)
          exact le_of_lt this
        · simp at hc; rw [hc]
      obtain ⟨w1, g1, g2, g3, g4⟩ := slide_step N hN w0 h2 h3 H cur hincH hcur h5 v i hcuri
        (fun _ => hnw (v, i) (by rw [htail]; simp))
      refine ⟨w1, i, ?_, g2, g3, ⟨H, v, rfl⟩, g4⟩
      rw [recordAll_append, h1]
      simp [recordAll, g1]

theorem slide_values (N : Nat) (hN : 1 ≤ N) (P : List (Int × Int)) (pre : List (Int × Int))
    (value index : Int) (hP : P = pre ++ [(value, index)])
    (hinc : P.Pairwise (fun a b => a.2 < b.2)) :
    ((P.filter (fun c => decide (index - (N : Int) < c.2))).map toEntry).map entry.value =
      windowValues N index P ∧
    (P.filter (fun c => decide (index - (N : Int) < c.2))).map toEntry ≠ [] := by
  have hle : ∀ c ∈ P, c.2 ≤ index := by
    intro c hc
    rw [hP] at hc hinc
    rcases List.mem_append.mp hc with hc | hc
    · exact le_of_lt ((List.pairwise_append.mp hinc).2.2 c hc (value, index) (by simp))
    · simp at hc; rw [hc]
  constructor
  · rw [List.map_map, windowValues]
    have hf : (entry.value ∘ toEntry) = Prod.fst := by
      funext c; rfl
    rw [hf]
    congr 1
    apply List.filter_congr
    intro c hc
    have := hle c hc
    by_cases h : index - (N : Int) < c.2
    · have h2 : index - (N : Int) + 1 ≤ c.2 := by omega
      simp [h, h2, this]
    · have h2 : ¬ index - (N : Int) + 1 ≤ c.2 := by omega
      simp [h, h2]
  · intro hnil
    have hmem : toEntry (value, index) ∈
        (P.filter (fun c => decide (index - (N : Int) < c.2))).map toEntry := by
      apply List.mem_map_of_mem
      rw [List.mem_filter]
      refine ⟨by rw [hP]; simp, ?_⟩
      have : index - (N : Int) < index := by omega
      simpa using this
    rw [hnil] at hmem
    simp at hmem

/-- C1 (amended): for every capacity `N ≥ 1` and every sequence of `(value, index)`
pairs with strictly increasing Go `int` indices in which every index after the first is at
least `-2^63 + N` (so that `index - N` does not wrap around), recorded in order into
`newWindow(N)`: after each `Record` call `Max()` is the maximum and `Min()` the minimum of the
values of the recorded pairs whose index lies in `[currentIndex - N + 1, currentIndex]`. -/
theorem C1_sliding_correctness (N : Nat) (hN : 1 ≤ N) (calls : List (Int × Int))
    (hinc : calls.Pairwise (fun a b => a.2 < b.2))
    (hint : ∀ c ∈ calls, isGoInt c.2)
    (hnowrap : ∀ c ∈ calls.tail, -(2 ^ 63) + (N : Int) ≤ c.2) :
    slidingCorrect N calls := by
  intro pre value index rest hcalls
  have hPne : pre ++ [(value, index)] ≠ [] := by simp
  have hsplit : calls = (pre ++ [(value, index)]) ++ rest := by
    rw [hcalls]; simp
  have hPinc : (pre ++ [(value, index)]).Pairwise (fun a b => a.2 < b.2) := by
    rw [hsplit] at hinc
    exact (List.pairwise_append.mp hinc).1
  have htail : calls.tail = (pre ++ [(value, index)]).tail ++ rest := by
    rw [hsplit]; exact List.tail_append_of_ne_nil hPne
  have hPnw : ∀ c ∈ (pre ++ [(value, index)]).tail,
      wrapInt (c.2 - (N : Int)) = c.2 - (N : Int) := by
    intro c hc
    have hc1 : c ∈ calls.tail := by rw [htail]; exact List.mem_append_left _ hc
    have h1 := hnowrap c hc1
    obtain ⟨_, h3⟩ := hint c (List.mem_of_mem_tail hc1)
    apply wrapInt_eq
    constructor <;> omega
  obtain ⟨w, cur, h1, h2, _, ⟨pre1, v1, hpre1⟩, h5⟩ :=
    slide_all N hN (pre ++ [(value, index)]) hPne hPinc hPnw
  have hcur : cur = index := by
    have := List.append_inj_right' hpre1 rfl
    simp at this
    exact this.2.symm
  subst hcur
  obtain ⟨hv, hnil⟩ := slide_values N hN _ pre value cur rfl hPinc
  rw [← h5] at hv hnil
  refine ⟨w, scanMax w.occupied, scanMin w.occupied, h1, Max_spec w h2, Min_spec w h2, ?_, ?_⟩
  · rw [← hv]; exact scanMax_isMaxOf _ hnil
  · rw [← hv]; exact scanMin_isMinOf _ hnil

/-- C1 fails as stated: with capacity 2, recording `(5, -2^63)` and then `(3, -2^63 + 1)`
(strictly increasing Go `int` indices) leaves `Max() = 3`, because `index - size` wraps around
to `2^63 - 1` and the entry with index `-2^63`, which lies inside the window
`[currentIndex - 1, currentIndex]`, is evicted. -/
theorem C1_counterexample :
    (1 ≤ 2 ∧
      [((5 : Int), (-9223372036854775808 : Int)), (3, -9223372036854775807)] ≠ [] ∧
      List.Pairwise (fun a b : Int × Int => a.2 < b.2)
        [(5, -9223372036854775808), (3, -9223372036854775807)] ∧
      (∀ c ∈ [((5 : Int), (-9223372036854775808 : Int)), (3, -9223372036854775807)],
        isGoInt c.2)) ∧
    (recordAll (newWindow 2) [(5, -9223372036854775808), (3, -9223372036854775807)]).bind
        window.Max = some 3 ∧
    windowValues 2 (-9223372036854775807)
        [(5, -9223372036854775808), (3, -9223372036854775807)] = [5, 3] ∧
    ¬ slidingCorrect 2 [(5, -9223372036854775808), (3, -9223372036854775807)] := by
  refine ⟨⟨by decide, by decide, by decide, by decide⟩, by decide, by decide, ?_⟩
  intro h
  obtain ⟨w, mx, mn, h1, h2, _, h4, _⟩ :=
    h [(5, -9223372036854775808)] 3 (-9223372036854775807) [] rfl
  have hw : recordAll (newWindow 2) ([((5 : Int), (-9223372036854775808 : Int))] ++
      [(3, -9223372036854775807)]) =
      some ⟨[⟨5, -9223372036854775808⟩, ⟨3, -9223372036854775807⟩], 1, 1⟩ := by decide
  rw [hw] at h1
  cases h1
  have hmx : (⟨[⟨5, -9223372036854775808⟩, ⟨3, -9223372036854775807⟩], 1, 1⟩ : window).Max
      = some 3 := by decide
  rw [hmx] at h2
  cases h2
  have hv : windowValues 2 (-9223372036854775807)
      ([((5 : Int), (-9223372036854775808 : Int))] ++ [(3, -9223372036854775807)]) = [5, 3] := by
    decide
  rw [hv] at h4
  have := h4.2 5 (by simp)
  omega

/-- C3: for every capacity `N ≥ 1` (a Go `int`) and all values `v 0, ..., v N`, recording
`(v k, k)` for `k = 0, ..., N - 1` and then `(v N, N)` into `newWindow(N)` returns a window
whose retained entries are exactly those with indices `1, ..., N` (the entry with index `0` is
evicted), so `Max()` is the maximum and `Min()` the minimum of `v 1, ..., v N`, whatever
`v 0` is. -/
theorem C3_eviction_boundary (N : Nat) (hN : 1 ≤ N) (hint : (N : Int) < 2 ^ 63)
    (v : Nat → Int) :
    ∃ w mx mn,
      recordAll (newWindow N) ((List.range (N + 1)).map (fun k => (v k, (k : Int)))) = some w ∧
      w.occupied = (List.range N).map (fun k => { value := v (k + 1), index := ((k + 1 : Nat) : Int) }) ∧
      w.Max = some mx ∧ w.Min = some mn ∧
      isMaxOf mx ((List.range N).map (fun k => v (k + 1))) ∧
      isMinOf mn ((List.range N).map (fun k => v (k + 1))) := by
  have hne : (List.range (N + 1)).map (fun k => (v k, (k : Int))) ≠ [] := by
    simp
  have hinc : ((List.range (N + 1)).map (fun k => (v k, (k : Int)))).Pairwise
      (fun a b => a.2 < b.2) := by
    rw [List.pairwise_map]
    exact List.Pairwise.imp (fun h => by simp only; exact_mod_cast h)
      (List.pairwise_lt_range (N + 1))
  have hnw : ∀ c ∈ ((List.range (N + 1)).map (fun k => (v k, (k : Int)))).tail,
      wrapInt (c.2 - (N : Int)) = c.2 - (N : Int) := by
    intro c hc
    obtain ⟨k, hk, rfl⟩ := List.mem_map.mp (List.mem_of_mem_tail hc)
    have hk := List.mem_range.mp hk
    apply wrapInt_eq
    constructor <;> simp only <;> omega
  obtain ⟨w, cur, h1, h2, _, ⟨pre1, v1, hpre1⟩, h5⟩ := slide_all N hN _ hne hinc hnw
  have hcur : cur = (N : Int) := by
    rw [List.range_succ, List.map_append] at hpre1
    have := List.append_inj_right' hpre1 rfl
    simp at this
    exact this.2.symm
  subst hcur
  have hocc : w.occupied =
      (List.range N).map (fun k => { value := v (k + 1), index := ((k + 1 : Nat) : Int) }) := by
    rw [h5, List.range_succ_eq_map, List.map_cons, List.filter_cons_of_neg (by simp),
      List.map_map, List.filter_eq_self.mpr, List.map_map]
    · apply List.map_congr_left
      intro k _
      simp [toEntry]
    · intro c hc
      obtain ⟨k, _, rfl⟩ := List.mem_map.mp hc
      simp only [Function.comp, decide_eq_true_eq]
      push_cast
      omega
  have hvals : w.occupied.map entry.value = (List.range N).map (fun k => v (k + 1)) := by
    rw [hocc, List.map_map]; rfl
  have hnil : w.occupied ≠ [] := by
    rw [hocc]; simp; omega
  refine ⟨w, scanMax w.occupied, scanMin w.occupied, h1, hocc, Max_spec w h2, Min_spec w h2,
    ?_, ?_⟩
  · rw [← hvals]; exact scanMax_isMaxOf _ hnil
  · rw [← hvals]; exact scanMin_isMinOf _ hnil

theorem mant_succ (a b : Nat) (e : Int) : mant a b (e + 1) = mant a b e / 2 := by
  unfold mant
  by_cases he : 0 ≤ e
  · have h1 : (-(e + 1)).toNat = 0 := by omega
    have h2 : (-e).toNat = 0 := by omega
    have h3 : (e + 1).toNat = e.toNat + 1 := by omega
    rw [h1, h2, h3, pow_succ, ← Nat.mul_assoc, Nat.div_div_eq_div_mul]
  · have h1 : (-e).toNat = (-(e + 1)).toNat + 1 := by omega
    have h2 : e.toNat = 0 := by omega
    have h3 : (e + 1).toNat = 0 := by omega
    rw [h1, h2, h3, pow_succ, ← Nat.mul_assoc, Nat.div_div_eq_div_mul, pow_zero, Nat.mul_one,
      Nat.mul_div_mul_right _ _ (by norm_num : 0 < 2)]

theorem normUp_spec (a b : Nat) :
    ∀ (fuel : Nat) (e : Int), mant a b (e + fuel) < 2 ^ 53 → 2 ^ 53 ≤ mant a b (e - 1) →
      mant a b (normUp a b fuel e) < 2 ^ 53 ∧ 2 ^ 53 ≤ mant a b (normUp a b fuel e - 1) ∧
        e ≤ normUp a b fuel e := by
  intro fuel
  induction fuel with
  | zero =>
    intro e h1 h2
    simp only [normUp]
    simp at h1
    exact ⟨h1, h2, le_refl _⟩
  | succ fuel ih =>
    intro e h1 h2
    simp only [normUp]
    split
    · rename_i h; exact ⟨h, h2, le_refl _⟩
    · rename_i h
      have h1' : mant a b (e + 1 + (fuel : Int)) < 2 ^ 53 := by
        have : e + 1 + (fuel : Int) = e + ((fuel + 1 : Nat) : Int) := by push_cast; ring
        rw [this]; exact h1
      have h2' : 2 ^ 53 ≤ mant a b (e + 1 - 1) := by
        have : e + 1 - 1 = e := by ring
        rw [this]; omega
      obtain ⟨g1, g2, g3⟩ := ih (e + 1) h1' h2'
      exact ⟨g1, g2, by omega⟩

theorem normDown_spec (a b : Nat) :
    ∀ (fuel : Nat) (e : Int), mant a b e < 2 ^ 53 → e - fuel ≤ -1074 → -1074 ≤ e →
      mant a b (normDown a b fuel e) < 2 ^ 53 ∧
        (2 ^ 52 ≤ mant a b (normDown a b fuel e) ∨ normDown a b fuel e = -1074) ∧
        -1074 ≤ normDown a b fuel e ∧ normDown a b fuel e ≤ e := by
  intro fuel
  induction fuel with
  | zero =>
    intro e h1 h2 h3
    simp only [normDown]
    simp at h2
    exact ⟨h1, Or.inr (by omega), h3, le_refl _⟩
  | succ fuel ih =>
    intro e h1 h2 h3
    simp only [normDown]
    split
    · rename_i h
      refine ⟨h1, ?_, h3, le_refl _⟩
      rcases h with h | h
      · exact Or.inl h
      · exact Or.inr (by omega)
    · rename_i h
      have hm : mant a b e < 2 ^ 52 := by
        by_contra hc; exact h (Or.inl (by omega))
      have he : -1074 < e := by
        by_contra hc; exact h (Or.inr (by omega))
      have hs := mant_succ a b (e - 1)
      have : e - 1 + 1 = e := by ring
      rw [this] at hs
      have h1' : mant a b (e - 1) < 2 ^ 53 := by
        rw [hs] at hm; omega
      have h2' : e - 1 - (fuel : Int) ≤ -1074 := by
        push_cast at h2; omega
      obtain ⟨g1, g2, g3, g4⟩ := ih (e - 1) h1' h2' (by omega)
      exact ⟨g1, g2, g3, by omega⟩

theorem expOf_spec (a b : Nat) (hrange : a < b * 2 ^ 200) :
    mant a b (expOf a b) < 2 ^ 53 ∧
      (2 ^ 52 ≤ mant a b (expOf a b) ∨ expOf a b = -1074) ∧ -1074 ≤ expOf a b ∧
      (mant a b 0 < 2 ^ 53 → expOf a b ≤ 0) ∧ (2 ^ 53 ≤ mant a b 0 → 1 ≤ expOf a b) := by
  unfold expOf
  split
  · rename_i h
    obtain ⟨g1, g2, g3, g4⟩ := normDown_spec a b 1100 0 h (by norm_num) (by norm_num)
    exact ⟨g1, g2, g3, fun _ => g4, fun h2 => absurd h (by omega)⟩
  · rename_i h
    have hbig : mant a b (1 + ((1100 : Nat) : Int)) < 2 ^ 53 := by
      have hz : mant a b (1 + ((1100 : Nat) : Int)) = 0 := by
        unfold mant
        have h1 : (-(1 + ((1100 : Nat) : Int))).toNat = 0 := by omega
        have h2 : 200 ≤ (1 + ((1100 : Nat) : Int)).toNat := by omega
        rw [h1, pow_zero, Nat.mul_one]
        apply Nat.div_eq_of_lt
        calc a < b * 2 ^ 200 := hrange
          _ ≤ b * 2 ^ (1 + ((1100 : Nat) : Int)).toNat :=
            Nat.mul_le_mul_left _ (Nat.pow_le_pow_right (by norm_num) h2)
      rw [hz]; norm_num
    obtain ⟨g1, g2, g3⟩ := normUp_spec a b 1100 1 hbig (by simpa using Nat.le_of_not_lt h)
    have hs := mant_succ a b (normUp a b 1100 1 - 1)
    have : normUp a b 1100 1 - 1 + 1 = normUp a b 1100 1 := by ring
    rw [this] at hs
    refine ⟨g1, Or.inl (by rw [hs]; omega), by omega, fun h2 => absurd h2 h, fun _ => g3⟩

theorem roundAt_ge (a b : Nat) (e : Int) : mant a b e ≤ roundAt a b e := by
  unfold roundAt
  split
  · exact le_refl _
  · split
    · omega
    · split <;> omega

theorem roundAt_le (a b : Nat) (e : Int) : roundAt a b e ≤ mant a b e + 1 := by
  unfold roundAt
  split
  · omega
  · split
    · omega
    · split <;> omega

theorem ceil_div_eq (P m k : Nat) (hP : 0 < P) (h1 : k * P < m) (h2 : m ≤ (k + 1) * P) :
    (m + (P - 1)) / P = k + 1 := by
  apply Nat.le_antisymm
  · have : (m + (P - 1)) / P < k + 2 := by
      rw [Nat.div_lt_iff_lt_mul hP]
      have : (k + 2) * P = (k + 1) * P + P := by ring
      omega
    omega
  · rw [Nat.le_div_iff_mul_le hP]
    have : (k + 1) * P = k * P + P := by ring
    omega

theorem f64Div_fst_le (a b : Nat) (hrange : a < b * 2 ^ 200) : (f64Div a b).1 ≤ 2 ^ 53 := by
  unfold f64Div
  split
  · simp
  · have h1 := (expOf_spec a b hrange).1
    have h2 := roundAt_le a b (expOf a b)
    simp only
    omega

theorem f64Div_snd_nonpos (a b : Nat) (hb : 0 < b) (hlt : a < b * 2 ^ 53) :
    (f64Div a b).2 ≤ 0 := by
  unfold f64Div
  split
  · simp
  · have hr : a < b * 2 ^ 200 :=
      lt_of_lt_of_le hlt (Nat.mul_le_mul_left _ (Nat.pow_le_pow_right (by norm_num) (by norm_num)))
    have hm : mant a b 0 < 2 ^ 53 := by
      unfold mant
      simp only [neg_zero, Int.toNat_zero, pow_zero, Nat.mul_one]
      rw [Nat.div_lt_iff_lt_mul hb]
      calc a < b * 2 ^ 53 := hlt
        _ = 2 ^ 53 * b := Nat.mul_comm _ _
    exact (expOf_spec a b hr).2.2.2.1 hm

theorem f64Trunc_ge_one (a b : Nat) (hb : 0 < b) (hab : b ≤ a) (hrange : a < b * 2 ^ 200) :
    1 ≤ f64Trunc (f64Div a b) := by
  have ha : a ≠ 0 := by omega
  obtain ⟨h1, h2, h3, _, _⟩ := expOf_spec a b hrange
  have hge := roundAt_ge a b (expOf a b)
  unfold f64Trunc f64Div
  rw [if_neg ha]
  simp only
  by_cases he : expOf a b ≤ 0
  · have ht : (expOf a b).toNat = 0 := by omega
    have hm : 2 ^ (-expOf a b).toNat ≤ mant a b (expOf a b) := by
      unfold mant
      rw [ht, pow_zero, Nat.mul_one, Nat.le_div_iff_mul_le hb]
      calc 2 ^ (-expOf a b).toNat * b = b * 2 ^ (-expOf a b).toNat := Nat.mul_comm _ _
        _ ≤ a * 2 ^ (-expOf a b).toNat := Nat.mul_le_mul_right _ hab
    rw [ht, pow_zero, Nat.mul_one, Nat.le_div_iff_mul_le (by positivity)]
    omega
  · have ht : (-expOf a b).toNat = 0 := by omega
    have hm : 2 ^ 52 ≤ mant a b (expOf a b) := by
      rcases h2 with h2 | h2
      · exact h2
      · omega
    rw [ht, pow_zero, Nat.div_one]
    have hp : 0 < 2 ^ (expOf a b).toNat := by positivity
    have : 1 ≤ roundAt a b (expOf a b) := by omega
    exact Nat.mul_pos this hp

theorem f64OfNat_exact (n : Nat) (h : n ≤ 2 ^ 53) : f64OfNat n = n := by
  by_cases h53 : n = 2 ^ 53
  · subst h53; decide
  by_cases h0 : n = 0
  · subst h0; decide
  have hlt : n < 2 ^ 53 := by omega
  have hr : n < 1 * 2 ^ 200 := by
    calc n < 2 ^ 53 := hlt
      _ ≤ 1 * 2 ^ 200 := by norm_num
  have hm0 : mant n 1 0 < 2 ^ 53 := by
    unfold mant; simpa using hlt
  have he := (expOf_spec n 1 hr).2.2.2.1 hm0
  have ht : (expOf n 1).toNat = 0 := by omega
  unfold f64OfNat f64Trunc f64Div
  rw [if_neg h0]
  simp only
  have hround : roundAt n 1 (expOf n 1) = n * 2 ^ (-expOf n 1).toNat := by
    unfold roundAt mant
    rw [ht]
    simp [Nat.mod_one]
  rw [hround, ht, pow_zero, Nat.mul_one]
  exact Nat.mul_div_cancel _ (by positivity)

theorem f64OfNat_ge (n : Nat) (h : 2 ^ 53 ≤ n) (h2 : n < 2 ^ 200) :
    2 ^ 53 ≤ f64OfNat n ∧ f64OfNat n ≤ 2 * n := by
  have h0 : n ≠ 0 := by
    intro h0; rw [h0] at h; norm_num at h
  have hr : n < 1 * 2 ^ 200 := by omega
  have hm0 : 2 ^ 53 ≤ mant n 1 0 := by
    unfold mant; simpa using h
  obtain ⟨h1, h2', _, _, h5⟩ := expOf_spec n 1 hr
  have he := h5 hm0
  have ht : (-expOf n 1).toNat = 0 := by omega
  have hm : 2 ^ 52 ≤ mant n 1 (expOf n 1) := by
    rcases h2' with h | h
    · exact h
    · omega
  have hge := roundAt_ge n 1 (expOf n 1)
  have hle := roundAt_le n 1 (expOf n 1)
  have hE : 2 ≤ 2 ^ (expOf n 1).toNat := by
    have : (expOf n 1).toNat = ((expOf n 1).toNat - 1) + 1 := by omega
    rw [this, pow_succ]
    have : 0 < 2 ^ ((expOf n 1).toNat - 1) := by positivity
    omega
  have hmant : mant n 1 (expOf n 1) = n / 2 ^ (expOf n 1).toNat := by
    unfold mant; rw [ht]; simp
  have hmul : n / 2 ^ (expOf n 1).toNat * 2 ^ (expOf n 1).toNat ≤ n := Nat.div_mul_le_self _ _
  have hval : f64OfNat n = roundAt n 1 (expOf n 1) * 2 ^ (expOf n 1).toNat := by
    unfold f64OfNat f64Trunc f64Div
    rw [if_neg h0]
    simp only
    rw [ht, pow_zero, Nat.div_one]
  rw [hval]
  constructor
  · calc 2 ^ 53 = 2 ^ 52 * 2 := by norm_num
      _ ≤ roundAt n 1 (expOf n 1) * 2 ^ (expOf n 1).toNat :=
        Nat.mul_le_mul (by omega) hE
  · have hpos : 2 ^ (expOf n 1).toNat ≤ n := by
      have h1' : 1 ≤ n / 2 ^ (expOf n 1).toNat := by omega
      calc 2 ^ (expOf n 1).toNat = 1 * 2 ^ (expOf n 1).toNat := (Nat.one_mul _).symm
        _ ≤ n / 2 ^ (expOf n 1).toNat * 2 ^ (expOf n 1).toNat := Nat.mul_le_mul_right _ h1'
        _ ≤ n := hmul
    calc roundAt n 1 (expOf n 1) * 2 ^ (expOf n 1).toNat
        ≤ (n / 2 ^ (expOf n 1).toNat + 1) * 2 ^ (expOf n 1).toNat :=
          Nat.mul_le_mul_right _ (by omega)
      _ = n / 2 ^ (expOf n 1).toNat * 2 ^ (expOf n 1).toNat + 2 ^ (expOf n 1).toNat := by ring
      _ ≤ 2 * n := by omega

theorem secondsNat_whole (s : Nat) (hs : s < 2 ^ 53) : secondsNat (s * 1000000000) = s := by
  have hdiv : s * 1000000000 / 1000000000 = s := Nat.mul_div_cancel _ (by norm_num)
  have hmod : s * 1000000000 % 1000000000 = 0 := Nat.mul_mod_left _ _
  have hz : f64OfNat 0 = 0 := by decide
  have hq : f64Div 0 1000000000 = (0, 0) := by simp [f64Div]
  unfold secondsNat
  rw [hdiv, hmod, hz, hq]
  simp only [neg_zero, Int.toNat_zero, pow_zero, Nat.mul_one, Nat.zero_mul, Nat.add_zero]
  have := f64OfNat_exact s (by omega)
  rw [this]
  exact this

theorem secondsNat_ge_one (n : Nat) (h1 : 1000000000 ≤ n) (h2 : n < 2 ^ 63) :
    1 ≤ secondsNat n := by
  have hsec1 : 1 ≤ n / 1000000000 := (Nat.le_div_iff_mul_le (by norm_num)).mpr (by omega)
  have hsec2 : n / 1000000000 < 2 ^ 53 := by
    rw [Nat.div_lt_iff_lt_mul (by norm_num)]
    calc n < 2 ^ 63 := h2
      _ ≤ 2 ^ 53 * 1000000000 := by norm_num
  have hns : n % 1000000000 < 1000000000 := Nat.mod_lt _ (by norm_num)
  have hfs : f64OfNat (n / 1000000000) = n / 1000000000 := f64OfNat_exact _ (by omega)
  have hfn : f64OfNat (n % 1000000000) = n % 1000000000 :=
    f64OfNat_exact _ (by
      calc n % 1000000000 ≤ 1000000000 := le_of_lt hns
        _ ≤ 2 ^ 53 := by norm_num)
  unfold secondsNat
  rw [hfs, hfn]
  have hr1 : n % 1000000000 < 1000000000 * 2 ^ 200 :=
    lt_of_lt_of_le hns (Nat.le_mul_of_pos_right _ (by positivity))
  have hlt1 : n % 1000000000 < 1000000000 * 2 ^ 53 :=
    lt_of_lt_of_le hns (Nat.le_mul_of_pos_right _ (by positivity))
  have hm := f64Div_fst_le (n % 1000000000) 1000000000 hr1
  have he := f64Div_snd_nonpos (n % 1000000000) 1000000000 (by norm_num) hlt1
  have hp : (f64Div (n % 1000000000) 1000000000).2.toNat = 0 := by omega
  rw [hp, pow_zero, Nat.mul_one]
  have hB : 0 < 2 ^ (-(f64Div (n % 1000000000) 1000000000).2).toNat := by positivity
  apply f64Trunc_ge_one _ _ hB
  · calc 2 ^ (-(f64Div (n % 1000000000) 1000000000).2).toNat
        = 1 * 2 ^ (-(f64Div (n % 1000000000) 1000000000).2).toNat := (Nat.one_mul _).symm
      _ ≤ n / 1000000000 * 2 ^ (-(f64Div (n % 1000000000) 1000000000).2).toNat :=
        Nat.mul_le_mul_right _ hsec1
      _ ≤ _ := Nat.le_add_right _ _
  · have hone : 1 ≤ 2 ^ (-(f64Div (n % 1000000000) 1000000000).2).toNat := hB
    calc n / 1000000000 * 2 ^ (-(f64Div (n % 1000000000) 1000000000).2).toNat
          + (f64Div (n % 1000000000) 1000000000).1
        ≤ n / 1000000000 * 2 ^ (-(f64Div (n % 1000000000) 1000000000).2).toNat
          + 2 ^ 53 * 2 ^ (-(f64Div (n % 1000000000) 1000000000).2).toNat := by
          apply Nat.add_le_add_left
          calc (f64Div (n % 1000000000) 1000000000).1 ≤ 2 ^ 53 := hm
            _ = 2 ^ 53 * 1 := (Nat.mul_one _).symm
            _ ≤ 2 ^ 53 * 2 ^ (-(f64Div (n % 1000000000) 1000000000).2).toNat :=
              Nat.mul_le_mul_left _ hone
      _ = (n / 1000000000 + 2 ^ 53) * 2 ^ (-(f64Div (n % 1000000000) 1000000000).2).toNat := by
          ring
      _ < 2 ^ 200 * 2 ^ (-(f64Div (n % 1000000000) 1000000000).2).toNat := by
          apply Nat.mul_lt_mul_of_pos_right _ hB
          calc n / 1000000000 + 2 ^ 53 < 2 ^ 53 + 2 ^ 53 := by omega
            _ ≤ 2 ^ 200 := by norm_num
      _ = 2 ^ (-(f64Div (n % 1000000000) 1000000000).2).toNat * 2 ^ 200 := Nat.mul_comm _ _

theorem f64Ceil_div (a b : Nat) (ha : a ≤ 2 ^ 53) (hb : 0 < b) (hb2 : b < 2 ^ 100) :
    f64Ceil (f64Div a b) = (a + (b - 1)) / b := by
  by_cases ha0 : a = 0
  · subst ha0
    have : (0 + (b - 1)) / b = 0 := Nat.div_eq_of_lt (by omega)
    rw [this]
    simp [f64Div, f64Ceil]
  have hr : a < b * 2 ^ 200 := by
    calc a ≤ 2 ^ 53 := ha
      _ < 1 * 2 ^ 200 := by norm_num
      _ ≤ b * 2 ^ 200 := Nat.mul_le_mul_right _ hb
  by_cases hm0 : mant a b 0 < 2 ^ 53
  · obtain ⟨_, h2, h3, h4, _⟩ := expOf_spec a b hr
    have he := h4 hm0
    have ht : (expOf a b).toNat = 0 := by omega
    have hP : 0 < 2 ^ (-expOf a b).toNat := by positivity
    have hmant : mant a b (expOf a b) = a * 2 ^ (-expOf a b).toNat / b := by
      unfold mant; rw [ht, pow_zero, Nat.mul_one]
    have hnorm : 2 ^ 52 ≤ mant a b (expOf a b) := by
      rcases h2 with h | h
      · exact h
      · rw [hmant, h, Nat.le_div_iff_mul_le hb]
        have key : ∀ E : Nat, 152 ≤ E → 2 ^ 52 * b ≤ a * 2 ^ E := by
          intro E hE
          calc 2 ^ 52 * b ≤ 2 ^ 52 * 2 ^ 100 := Nat.mul_le_mul_left _ (le_of_lt hb2)
            _ = 2 ^ 152 := by norm_num
            _ ≤ 2 ^ E := Nat.pow_le_pow_right (by norm_num) hE
            _ = 1 * 2 ^ E := (Nat.one_mul _).symm
            _ ≤ a * 2 ^ E := Nat.mul_le_mul_right _ (Nat.pos_of_ne_zero ha0)
        exact key _ (by decide)
    have hdm := Nat.div_add_mod a b
    have hdmN := Nat.div_add_mod (a * 2 ^ (-expOf a b).toNat) b
    have hk1 : a / b * 2 ^ (-expOf a b).toNat ≤ mant a b (expOf a b) := by
      rw [hmant, Nat.le_div_iff_mul_le hb]
      calc a / b * 2 ^ (-expOf a b).toNat * b = (b * (a / b)) * 2 ^ (-expOf a b).toNat := by ring
        _ ≤ a * 2 ^ (-expOf a b).toNat := Nat.mul_le_mul_right _ (by omega)
    have hval : f64Ceil (f64Div a b) =
        (roundAt a b (expOf a b) + (2 ^ (-expOf a b).toNat - 1)) / 2 ^ (-expOf a b).toNat := by
      unfold f64Ceil f64Div
      rw [if_neg ha0]
      simp only
      rw [ht, pow_zero, Nat.mul_one]
    rw [hval]
    by_cases hr0 : a % b = 0
    · have hab : a = b * (a / b) := by omega
      have hN : a * 2 ^ (-expOf a b).toNat = b * (a / b * 2 ^ (-expOf a b).toNat) := by
        rw [← Nat.mul_assoc, ← hab]
      have hmk : mant a b (expOf a b) = a / b * 2 ^ (-expOf a b).toNat := by
        rw [hmant, hN, Nat.mul_div_cancel_left _ hb]
      have hrem : a * 2 ^ (-expOf a b).toNat % b = 0 := by
        rw [hN]; exact Nat.mul_mod_right _ _
      have hround : roundAt a b (expOf a b) = a / b * 2 ^ (-expOf a b).toNat := by
        unfold roundAt
        rw [ht, pow_zero, Nat.mul_one, hrem, if_pos (by omega)]
        exact hmk
      rw [hround]
      have hrhs : (a + (b - 1)) / b = a / b := by
        apply Nat.le_antisymm
        · have : (a + (b - 1)) / b < a / b + 1 := by
            rw [Nat.div_lt_iff_lt_mul hb]
            have : (a / b + 1) * b = b * (a / b) + b := by ring
            omega
          omega
        · exact Nat.div_le_div_right (Nat.le_add_right _ _)
      rw [hrhs]
      apply Nat.le_antisymm
      · have : (a / b * 2 ^ (-expOf a b).toNat + (2 ^ (-expOf a b).toNat - 1)) /
            2 ^ (-expOf a b).toNat < a / b + 1 := by
          rw [Nat.div_lt_iff_lt_mul hP]
          have : (a / b + 1) * 2 ^ (-expOf a b).toNat =
              a / b * 2 ^ (-expOf a b).toNat + 2 ^ (-expOf a b).toNat := by ring
          omega
        omega
      · rw [Nat.le_div_iff_mul_le hP]
        omega
    · have hrpos : 0 < a % b := Nat.pos_of_ne_zero hr0
      have hrlt : a % b < b := Nat.mod_lt _ hb
      have hupper : roundAt a b (expOf a b) ≤ (a / b + 1) * 2 ^ (-expOf a b).toNat := by
        have hlt : mant a b (expOf a b) < (a / b + 1) * 2 ^ (-expOf a b).toNat := by
          rw [hmant, Nat.div_lt_iff_lt_mul hb]
          calc a * 2 ^ (-expOf a b).toNat
              < (b * (a / b) + b) * 2 ^ (-expOf a b).toNat :=
                Nat.mul_lt_mul_of_pos_right (by omega) hP
            _ = (a / b + 1) * 2 ^ (-expOf a b).toNat * b := by ring
        have := roundAt_le a b (expOf a b)
        omega
      have hlower : a / b * 2 ^ (-expOf a b).toNat < roundAt a b (expOf a b) := by
        have hge := roundAt_ge a b (expOf a b)
        by_cases hk : a / b * 2 ^ (-expOf a b).toNat < mant a b (expOf a b)
        · omega
        · have hmk : mant a b (expOf a b) = a / b * 2 ^ (-expOf a b).toNat := by omega
          have hrem : a * 2 ^ (-expOf a b).toNat % b = a % b * 2 ^ (-expOf a b).toNat := by
            have e1 : a * 2 ^ (-expOf a b).toNat =
                b * (a / b * 2 ^ (-expOf a b).toNat) + a % b * 2 ^ (-expOf a b).toNat := by
              calc a * 2 ^ (-expOf a b).toNat
                  = (b * (a / b) + a % b) * 2 ^ (-expOf a b).toNat := by rw [hdm]
                _ = _ := by ring
            rw [← hmant, hmk] at hdmN
            omega
          have hbig : b < 2 * (a % b * 2 ^ (-expOf a b).toNat) := by
            by_contra hc
            have hc : 2 * (a % b * 2 ^ (-expOf a b).toNat) ≤ b := by omega
            have h52 : 2 ^ 52 ≤ a / b * 2 ^ (-expOf a b).toNat := by omega
            have : 2 ^ 53 ≤ b * (a / b) := by
              calc 2 ^ 53 = 2 * 2 ^ 52 := by norm_num
                _ ≤ 2 * (a / b * 2 ^ (-expOf a b).toNat) := Nat.mul_le_mul_left _ h52
                _ = 1 * (2 * 2 ^ (-expOf a b).toNat) * (a / b) := by ring
                _ ≤ a % b * (2 * 2 ^ (-expOf a b).toNat) * (a / b) :=
                  Nat.mul_le_mul_right _ (Nat.mul_le_mul_right _ hrpos)
                _ = 2 * (a % b * 2 ^ (-expOf a b).toNat) * (a / b) := by ring
                _ ≤ b * (a / b) := Nat.mul_le_mul_right _ hc
            omega
          have hround : roundAt a b (expOf a b) = mant a b (expOf a b) + 1 := by
            unfold roundAt
            rw [ht, pow_zero, Nat.mul_one, hrem, if_neg (by omega), if_pos hbig]
          omega
      rw [ceil_div_eq _ _ (a / b) hP hlower hupper]
      symm
      have := ceil_div_eq b a (a / b) hb (by
        calc a / b * b = b * (a / b) := Nat.mul_comm _ _
          _ < a := by omega) (by
        have : (a / b + 1) * b = b * (a / b) + b := by ring
        omega)
      exact this
  · have hge : 2 ^ 53 ≤ a / b := by
      unfold mant at hm0
      simpa using hm0
    have hmul : 2 ^ 53 * b ≤ a := (Nat.le_div_iff_mul_le hb).mp hge
    have hb1 : b = 1 := by
      by_contra hne
      have : 2 ≤ b := by omega
      have : 2 ^ 53 * 2 ≤ 2 ^ 53 * b := Nat.mul_le_mul_left _ this
      omega
    subst hb1
    have ha53 : a = 2 ^ 53 := by omega
    subst ha53
    decide

theorem secondsInt_whole (s : Int) (hs : 1 ≤ s) : secondsInt (s * 1000000000) = s := by
  unfold secondsInt
  by_cases h : isGoInt (s * 1000000000)
  · rw [if_pos h, if_pos (by omega)]
    obtain ⟨n, rfl⟩ := Int.eq_ofNat_of_zero_le (by omega : 0 ≤ s)
    have hn : ((n : Int) * 1000000000).toNat = n * 1000000000 := by omega
    have hlt : n < 2 ^ 53 := by
      have := h.2
      omega
    rw [hn, secondsNat_whole n hlt]
  · rw [if_neg h]
    exact Int.mul_tdiv_cancel _ (by norm_num)

theorem secondsInt_ge_one (d : Int) (hd : 1000000000 ≤ d) : 1 ≤ secondsInt d := by
  unfold secondsInt
  by_cases h : isGoInt d
  · rw [if_pos h, if_pos (by omega)]
    have := secondsNat_ge_one d.toNat (by omega) (by have := h.2; omega)
    omega
  · rw [if_neg h, Int.tdiv_eq_ediv (by omega) (by norm_num)]
    omega

theorem secondsInt_rounding :
    secondsInt 16777216999999999 = 16777217 ∧ secondsInt 16777215999999999 = 16777215 ∧
      secondsInt (-1500000000) = -1 := by
  decide

theorem specBucketIndex_eq_floor (nowUnix granularity : Int) (hg : 0 < granularity) :
    specBucketIndex nowUnix granularity =
      ⌊(nowUnix : ℚ) / ((granularity : ℚ) / 1000000000)⌋ := by
  obtain ⟨g, rfl⟩ := Int.eq_ofNat_of_zero_le (le_of_lt hg)
  have h : (nowUnix : ℚ) / (((g : Int) : ℚ) / 1000000000) =
      ((nowUnix * 1000000000 : Int) : ℚ) / ((g : Nat) : ℚ) := by
    push_cast
    rw [div_div_eq_mul_div]
  rw [h, Rat.floor_intCast_div_natCast]
  rfl

theorem bucketIndex_whole_seconds (t : TimeWindow) (s : Int) (hs : 1 ≤ s)
    (hg : t.granularity = s * 1000000000) (now : Int) (h0 : 0 ≤ now) (hint : now < 2 ^ 63) :
    t.bucketIndex now = some (now / s) ∧ specBucketIndex now t.granularity = now / s := by
  have hsec : secondsInt t.granularity = s := by
    rw [hg]
    exact secondsInt_whole s hs
  have hdiv : Int.tdiv now s = now / s := by
    rw [Int.tdiv_eq_ediv h0 (by omega)]
  have hq0 : 0 ≤ now / s := Int.ediv_nonneg h0 (by omega)
  have hq1 : now / s ≤ now := Int.ediv_le_self _ h0
  constructor
  · rw [TimeWindow.bucketIndex, hsec, if_neg (by omega), hdiv, wrapInt_eq]
    constructor <;> omega
  · rw [specBucketIndex, hg]
    exact Int.mul_ediv_mul_of_pos_left _ _ (by norm_num)

theorem ediv_eq_of_bounds (x s k : Int) (hs : 0 < s) (h1 : k * s ≤ x) (h2 : x < (k + 1) * s) :
    x / s = k := by
  have ha : k ≤ x / s := (Int.le_ediv_iff_mul_le hs).mpr h1
  have hb : x / s < k + 1 := (Int.ediv_lt_iff_lt_mul hs).mpr h2
  omega

/-- C8 (amended): for every granularity that is a whole number `s ≥ 1` of seconds and every
timestamp at or after the Unix epoch (`now.Unix() ≥ 0`), `TimeWindow.Record(now, value)`
forwards to `window.Record` with `index = floor(now_in_seconds / granularity_in_seconds)`;
consequently any two such timestamps lying in the same granularity-aligned interval
`[k*s, (k+1)*s)` are recorded under the same index. -/
theorem C8_bucket_index_floor (t : TimeWindow) (s : Int) (hs : 1 ≤ s)
    (hg : t.granularity = s * 1000000000) (now : Int) (h0 : 0 ≤ now) (hint : now < 2 ^ 63)
    (value : Int) :
    t.bucketIndex now = some (specBucketIndex now t.granularity) ∧
    t.Record now value =
      (t.window.Record value (specBucketIndex now t.granularity)).map
        (fun w => { t with window := w }) ∧
    (∀ now2 k : Int, 0 ≤ now2 → now2 < 2 ^ 63 → k * s ≤ now → now < (k + 1) * s →
      k * s ≤ now2 → now2 < (k + 1) * s → t.bucketIndex now2 = t.bucketIndex now) := by
  obtain ⟨h1, h2⟩ := bucketIndex_whole_seconds t s hs hg now h0 hint
  have hbi : t.bucketIndex now = some (specBucketIndex now t.granularity) := by
    rw [h1, h2]
  refine ⟨hbi, ?_, ?_⟩
  · rw [TimeWindow.Record, hbi]
    simp only
    cases t.window.Record value (specBucketIndex now t.granularity) <;> rfl
  · intro now2 k g0 gint ha hb hc hd
    rw [h1, (bucketIndex_whole_seconds t s hs hg now2 g0 gint).1,
      ediv_eq_of_bounds now s k (by omega) ha hb, ediv_eq_of_bounds now2 s k (by omega) hc hd]

/-- C8 fails as stated.  With granularity 60s the timestamp one second before the epoch is
recorded under index `0`, not `floor(-1 / 60) = -1`, and the timestamps `-60` and `-59`, both
in `[-60, 0)`, get the different indices `-1` and `0` (Go's `/` truncates toward zero).  With
granularity 1.5s the divisor is `int(1.5) = 1`, so the timestamp `3` is recorded under index
`3`, not `floor(3 / 1.5) = 2`. -/
theorem C8_counterexample :
    ((0 : Int) < 60000000000 ∧
      (⟨newWindow 5, 60000000000⟩ : TimeWindow).bucketIndex (-1) = some 0 ∧
      specBucketIndex (-1) 60000000000 = -1) ∧
    ((-1 : Int) * 60 ≤ -60 ∧ (-60 : Int) < (-1 + 1) * 60 ∧
      (-1 : Int) * 60 ≤ -59 ∧ (-59 : Int) < (-1 + 1) * 60 ∧
      (⟨newWindow 5, 60000000000⟩ : TimeWindow).bucketIndex (-60) = some (-1) ∧
      (⟨newWindow 5, 60000000000⟩ : TimeWindow).bucketIndex (-59) = some 0) ∧
    ((0 : Int) < 1500000000 ∧
      (⟨newWindow 5, 1500000000⟩ : TimeWindow).bucketIndex 3 = some 3 ∧
      specBucketIndex 3 1500000000 = 2) ∧
    ¬ (∀ (t : TimeWindow) (now : Int), 0 < t.granularity → isGoInt now →
        t.bucketIndex now = some (specBucketIndex now t.granularity)) := by
  refine ⟨by decide, by decide, by decide, ?_⟩
  intro h
  have := h ⟨newWindow 5, 60000000000⟩ (-1) (by decide) (by decide)
  revert this
  decide

/-- C10 (amended): for every granularity of at least one second and every timestamp, the
divisor `int(t.granularity.Seconds())` of the bucket index is non-zero, so
`TimeWindow.Record` on a time window whose window is reachable completes and forwards exactly
one `window.Record` call, made with the bucket index. -/
theorem C10_divisor_nonzero (t : TimeWindow) (hw : Reachable t.window)
    (hg : 1000000000 ≤ t.granularity) (now value : Int) :
    secondsInt t.granularity ≠ 0 ∧
    ∃ index w, t.bucketIndex now = some index ∧ t.window.Record value index = some w ∧
      t.Record now value = some { t with window := w } := by
  have hsec : 1 ≤ secondsInt t.granularity := secondsInt_ge_one _ hg
  have hne : secondsInt t.granularity ≠ 0 := by omega
  obtain ⟨w, h1, _⟩ := Record_spec t.window (Reachable_wf hw) value
    (wrapInt (Int.tdiv now (secondsInt t.granularity)))
  have hbi : t.bucketIndex now = some (wrapInt (Int.tdiv now (secondsInt t.granularity))) := by
    rw [TimeWindow.bucketIndex, if_neg hne]
  refine ⟨hne, _, w, hbi, h1, ?_⟩
  rw [TimeWindow.Record, hbi]
  simp only [h1]

/-- C10 fails as stated: the positive granularity 500ms has `int(granularity.Seconds()) = 0`,
so computing the bucket index divides by zero and `TimeWindow.Record` panics. -/
theorem C10_counterexample :
    (0 : Int) < 500000000 ∧ secondsInt 500000000 = 0 ∧
    (⟨newWindow 5, 500000000⟩ : TimeWindow).bucketIndex 1700000000 = none ∧
    (⟨newWindow 5, 500000000⟩ : TimeWindow).Record 1700000000 7 = none := by
  decide

theorem sampleWindow_reachable : Reachable sampleWindow :=
  Reachable.record ⟨[⟨5, 0⟩, ⟨0, 0⟩], 0, 1⟩ sampleWindow 9 1
    (Reachable.record (newWindow 2) ⟨[⟨5, 0⟩, ⟨0, 0⟩], 0, 1⟩ 5 0 (Reachable.init 2) (by decide))
    (by decide)

/-- Witness for C1: capacity 3 and five samples at the indices `0, ..., 4`. -/
theorem C1_sliding_correctness_witness :
    1 ≤ 3 ∧
    List.Pairwise (fun a b : Int × Int => a.2 < b.2) [(5, 0), (9, 1), (1, 2), (7, 3), (3, 4)] ∧
    (∀ c ∈ [((5 : Int), (0 : Int)), (9, 1), (1, 2), (7, 3), (3, 4)], isGoInt c.2) ∧
    (∀ c ∈ [((5 : Int), (0 : Int)), (9, 1), (1, 2), (7, 3), (3, 4)].tail,
      -(2 ^ 63) + ((3 : Nat) : Int) ≤ c.2) ∧
    slidingCorrect 3 [(5, 0), (9, 1), (1, 2), (7, 3), (3, 4)] :=
  ⟨by decide, by decide, by decide, by decide,
    C1_sliding_correctness 3 (by decide) [(5, 0), (9, 1), (1, 2), (7, 3), (3, 4)]
      (by decide) (by decide) (by decide)⟩

/-- Witness for C2: the reachable two-slot window holding `(5, 0)` and `(9, 1)`. -/
theorem C2_max_min_range_over_occupied_slots_witness :
    Reachable sampleWindow ∧ 0 < sampleWindow.length ∧
    ∃ mx mn : Int, sampleWindow.Max = some mx ∧ sampleWindow.Min = some mn ∧
      (∃ i : Int, 0 ≤ i ∧ i < sampleWindow.length ∧
        ∃ e, sampleWindow.slot ((sampleWindow.first + i) % sampleWindow.Size) = some e ∧
          e.value = mx) ∧
      (∀ i : Int, 0 ≤ i → i < sampleWindow.length →
        ∃ e, sampleWindow.slot ((sampleWindow.first + i) % sampleWindow.Size) = some e ∧
          e.value ≤ mx) ∧
      (∃ i : Int, 0 ≤ i ∧ i < sampleWindow.length ∧
        ∃ e, sampleWindow.slot ((sampleWindow.first + i) % sampleWindow.Size) = some e ∧
          e.value = mn) ∧
      (∀ i : Int, 0 ≤ i → i < sampleWindow.length →
        ∃ e, sampleWindow.slot ((sampleWindow.first + i) % sampleWindow.Size) = some e ∧
          mn ≤ e.value) ∧
      (∀ w1 : window, w1.first = sampleWindow.first → w1.length = sampleWindow.length →
        w1.Size = sampleWindow.Size →
        (∀ i : Int, 0 ≤ i → i < sampleWindow.length →
          w1.slot ((sampleWindow.first + i) % sampleWindow.Size) =
            sampleWindow.slot ((sampleWindow.first + i) % sampleWindow.Size)) →
        w1.Max = some mx ∧ w1.Min = some mn) :=
  ⟨sampleWindow_reachable, by decide,
    C2_max_min_range_over_occupied_slots sampleWindow sampleWindow_reachable (by decide)⟩

/-- Witness for C3: capacity 2 with the values `4, 8, 6`. -/
theorem C3_eviction_boundary_witness :
    1 ≤ 2 ∧ ((2 : Nat) : Int) < 2 ^ 63 ∧
    ∃ w mx mn,
      recordAll (newWindow 2)
        ((List.range (2 + 1)).map (fun k => ((fun j : Nat => 4 * ((j : Int) + 1) % 10) k, (k : Int))))
          = some w ∧
      w.occupied = (List.range 2).map
        (fun k => { value := (fun j : Nat => 4 * ((j : Int) + 1) % 10) (k + 1),
                    index := ((k + 1 : Nat) : Int) }) ∧
      w.Max = some mx ∧ w.Min = some mn ∧
      isMaxOf mx ((List.range 2).map (fun k => (fun j : Nat => 4 * ((j : Int) + 1) % 10) (k + 1))) ∧
      isMinOf mn ((List.range 2).map (fun k => (fun j : Nat => 4 * ((j : Int) + 1) % 10) (k + 1))) :=
  ⟨by decide, by decide,
    C3_eviction_boundary 2 (by decide) (by decide) (fun j : Nat => 4 * ((j : Int) + 1) % 10)⟩

/-- Witness for C6: capacity 1, value 7, index -3. -/
theorem C6_single_insertion_witness :
    1 ≤ 1 ∧ ∃ w, (newWindow 1).Record 7 (-3) = some w ∧ w.Max = some 7 ∧ w.Min = some 7 :=
  ⟨by decide, C6_single_insertion 1 (by decide) 7 (-3)⟩

/-- Witness for C8: granularity 60s, a five-bucket window, timestamp 130s. -/
theorem C8_bucket_index_floor_witness :
    (1 : Int) ≤ 60 ∧ (⟨newWindow 5, 60000000000⟩ : TimeWindow).granularity = 60 * 1000000000 ∧
    (0 : Int) ≤ 130 ∧ (130 : Int) < 2 ^ 63 ∧
    ((⟨newWindow 5, 60000000000⟩ : TimeWindow).bucketIndex 130 =
        some (specBucketIndex 130 (⟨newWindow 5, 60000000000⟩ : TimeWindow).granularity) ∧
      (⟨newWindow 5, 60000000000⟩ : TimeWindow).Record 130 7 =
        ((⟨newWindow 5, 60000000000⟩ : TimeWindow).window.Record 7
          (specBucketIndex 130 (⟨newWindow 5, 60000000000⟩ : TimeWindow).granularity)).map
          (fun w => { (⟨newWindow 5, 60000000000⟩ : TimeWindow) with window := w }) ∧
      (∀ now2 k : Int, 0 ≤ now2 → now2 < 2 ^ 63 → k * 60 ≤ 130 → 130 < (k + 1) * 60 →
        k * 60 ≤ now2 → now2 < (k + 1) * 60 →
        (⟨newWindow 5, 60000000000⟩ : TimeWindow).bucketIndex now2 =
          (⟨newWindow 5, 60000000000⟩ : TimeWindow).bucketIndex 130)) :=
  ⟨by decide, by decide, by decide, by decide,
    C8_bucket_index_floor ⟨newWindow 5, 60000000000⟩ 60 (by decide) (by decide) 130
      (by decide) (by decide) 7⟩

/-- Witness for C10: granularity 60s, a fresh five-bucket window. -/
theorem C10_divisor_nonzero_witness :
    Reachable (⟨newWindow 5, 60000000000⟩ : TimeWindow).window ∧
    (1000000000 : Int) ≤ (⟨newWindow 5, 60000000000⟩ : TimeWindow).granularity ∧
    (secondsInt (⟨newWindow 5, 60000000000⟩ : TimeWindow).granularity ≠ 0 ∧
      ∃ index w, (⟨newWindow 5, 60000000000⟩ : TimeWindow).bucketIndex 1700000000 = some index ∧
        (⟨newWindow 5, 60000000000⟩ : TimeWindow).window.Record 7 index = some w ∧
        (⟨newWindow 5, 60000000000⟩ : TimeWindow).Record 1700000000 7 =
          some { (⟨newWindow 5, 60000000000⟩ : TimeWindow) with window := w }) :=
  ⟨Reachable.init 5, by decide,
    C10_divisor_nonzero ⟨newWindow 5, 60000000000⟩ (Reachable.init 5) (by decide) 1700000000 7⟩

theorem recordAll_wf (calls : List (Int × Int)) :
    ∀ w : window, w.wf → ∃ w1, recordAll w calls = some w1 ∧ w1.wf ∧ w1.Size = w.Size := by
  induction calls with
  | nil => intro w hwf; exact ⟨w, rfl, hwf, rfl⟩
  | cons c rest ih =>
    intro w hwf
    obtain ⟨v, i⟩ := c
    obtain ⟨w1, h1, h2, h3, _⟩ := Record_spec w hwf v i
    obtain ⟨w2, g1, g2, g3⟩ := ih w1 h2
    refine ⟨w2, ?_, g2, by rw [g3, h3]⟩
    simp only [recordAll, h1, g1]

theorem mem_listRecord (size value index : Int) (L : List entry) (e : entry)
    (h : e ∈ listRecord size value index L) :
    e ∈ L.dropWhile (tooOld index size) ∨
      (e = { value := value, index := index } ∧
        ((L.dropWhile (tooOld index size)).length : Int) < size) := by
  unfold listRecord at h
  split at h
  · rcases List.mem_append.mp h with h | h
    · left; exact h
    · right; simp at h; exact ⟨h, by assumption⟩
  · left; exact h

theorem occupied_length_int (w : window) (hwf : w.wf) : (w.occupied.length : Int) = w.length := by
  rw [occupied_length]
  exact Int.toNat_of_nonneg hwf.2.1

theorem recordAll_nonneg (calls : List (Int × Int)) :
    ∀ w : window, w.wf → (∀ e ∈ w.occupied, 0 ≤ e.value) → (∀ c ∈ calls, 0 ≤ c.1) →
      ∃ w1, recordAll w calls = some w1 ∧ w1.wf ∧ ∀ e ∈ w1.occupied, 0 ≤ e.value := by
  induction calls with
  | nil => intro w hwf h _; exact ⟨w, rfl, hwf, h⟩
  | cons c rest ih =>
    intro w hwf hocc hc
    obtain ⟨v, i⟩ := c
    obtain ⟨w1, h1, h2, _, h4⟩ := Record_spec w hwf v i
    have hv : 0 ≤ v := hc (v, i) (List.mem_cons_self _ _)
    have hocc1 : ∀ e ∈ w1.occupied, 0 ≤ e.value := by
      intro e he
      rw [h4] at he
      rcases mem_listRecord _ _ _ _ _ he with he | ⟨he, _⟩
      · exact hocc e ((List.dropWhile_sublist _).subset he)
      · rw [he]; exact hv
    obtain ⟨w2, g1, g2, g3⟩ := ih w1 h2 hocc1 (fun c hc1 => hc c (List.mem_cons_of_mem _ hc1))
    refine ⟨w2, ?_, g2, g3⟩
    simp only [recordAll, h1, g1]

/-- C11: in every window reached from `newWindow(size)` by `Record` calls whose values are all
`≥ 0`, the sentinel is unambiguous: `Max() = -1` exactly when the window is empty
(`length = 0`), and `Min() = -1` exactly when `length = 0`. -/
theorem C11_sentinel_unambiguous (size : Nat) (calls : List (Int × Int))
    (hnonneg : ∀ c ∈ calls, 0 ≤ c.1) :
    ∃ w, recordAll (newWindow size) calls = some w ∧
      (w.Max = some (-1) ↔ w.length = 0) ∧ (w.Min = some (-1) ↔ w.length = 0) := by
  obtain ⟨w, h1, h2, h3⟩ := recordAll_nonneg calls (newWindow size) (wf_newWindow size)
    (by simp [window.occupied, newWindow]) hnonneg
  refine ⟨w, h1, ?_, ?_⟩
  · constructor
    · intro hmax
      by_contra hne
      have hpos : 0 < w.length := by
        have := h2.2.1
        omega
      have hnil := occupied_ne_nil w hpos
      obtain ⟨hm, _⟩ := scanMax_isMaxOf w.occupied hnil
      rw [Max_spec w h2] at hmax
      have hsent : scanMax w.occupied = -1 := Option.some.inj hmax
      obtain ⟨e, he, hev⟩ := List.mem_map.mp hm
      have := h3 e he
      omega
    · intro hlen
      have : w.occupied = [] := by
        apply List.eq_nil_of_length_eq_zero
        rw [occupied_length, hlen]; rfl
      rw [Max_spec w h2, this]; rfl
  · constructor
    · intro hmin
      by_contra hne
      have hpos : 0 < w.length := by
        have := h2.2.1
        omega
      have hnil := occupied_ne_nil w hpos
      obtain ⟨hm, _⟩ := scanMin_isMinOf w.occupied hnil
      rw [Min_spec w h2] at hmin
      have hsent : scanMin w.occupied = -1 := Option.some.inj hmin
      obtain ⟨e, he, hev⟩ := List.mem_map.mp hm
      have := h3 e he
      omega
    · intro hlen
      have : w.occupied = [] := by
        apply List.eq_nil_of_length_eq_zero
        rw [occupied_length, hlen]; rfl
      rw [Min_spec w h2, this]; rfl

/-- Witness for C11: capacity 2 and the non-negative samples `0, 4, 2`. -/
theorem C11_sentinel_unambiguous_witness :
    (∀ c ∈ [((0 : Int), (0 : Int)), (4, 1), (2, 5)], 0 ≤ c.1) ∧
    ∃ w, recordAll (newWindow 2) [(0, 0), (4, 1), (2, 5)] = some w ∧
      (w.Max = some (-1) ↔ w.length = 0) ∧ (w.Min = some (-1) ↔ w.length = 0) :=
  ⟨by decide, C11_sentinel_unambiguous 2 [(0, 0), (4, 1), (2, 5)] (by decide)⟩

theorem evictLoop_valueList :
    ∀ (fuel : Nat) (w : window) (index : Int) (w1 : window),
      window.evictLoop fuel w index = some w1 → w1.valueList = w.valueList := by
  intro fuel
  induction fuel with
  | zero => intro w index w1 h; simp [window.evictLoop] at h
  | succ fuel ih =>
    intro w index w1 h
    rw [window.evictLoop] at h
    split at h
    · split at h
      · exact absurd h (by simp)
      · split at h
        · split at h
          · exact absurd h (by simp)
          · have := ih _ _ _ h
            simpa using this
        · cases h; rfl
    · cases h; rfl

theorem Record_Size (w : window) (value index : Int) (w1 : window)
    (h : w.Record value index = some w1) : w1.Size = w.Size := by
  rw [window.Record] at h
  split at h
  · exact absurd h (by simp)
  · rename_i w0 hE
    have hvl := evictLoop_valueList _ _ _ _ hE
    split at h
    · split at h
      · exact absurd h (by simp)
      · split at h
        · exact absurd h (by simp)
        · rename_i k _ w2 hstore
          cases h
          rw [window.store] at hstore
          split at hstore
          · exact absurd hstore (by simp)
          · cases hstore
            simp [window.Size, hvl]
    · cases h
      simp [window.Size, hvl]

/-- C12: the capacity is fixed: `newWindow(size).Size() = size`, and for every window and every
`(value, index)` the `Size()` of the window returned by `Record(value, index)` equals the
`Size()` before the call; on every reachable window the call does return. -/
theorem C12_fixed_capacity (size : Nat) (w : window) (value index : Int) :
    (newWindow size).Size = (size : Int) ∧
    (∀ w1, w.Record value index = some w1 → w1.Size = w.Size) ∧
    (Reachable w → ∃ w1, w.Record value index = some w1 ∧ w1.Size = w.Size) := by
  refine ⟨by simp [newWindow, window.Size], fun w1 h => Record_Size w value index w1 h, ?_⟩
  intro hr
  obtain ⟨w1, h1, _, h3, _⟩ := Record_spec w (Reachable_wf hr) value index
  exact ⟨w1, h1, h3⟩

/-- Witness for C12: the two-slot window holding `(5, 0)` and `(9, 1)`, then `Record(7, 2)`. -/
theorem C12_fixed_capacity_witness :
    (newWindow 2).Size = ((2 : Nat) : Int) ∧
    sampleWindow.Record 7 2 = some ⟨[⟨7, 2⟩, ⟨9, 1⟩], 1, 2⟩ ∧
    (⟨[⟨7, 2⟩, ⟨9, 1⟩], 1, 2⟩ : window).Size = sampleWindow.Size ∧
    (∃ w1, sampleWindow.Record 7 2 = some w1 ∧ w1.Size = sampleWindow.Size) :=
  ⟨(C12_fixed_capacity 2 sampleWindow 7 2).1, by decide,
    (C12_fixed_capacity 2 sampleWindow 7 2).2.1 _ (by decide),
    (C12_fixed_capacity 2 sampleWindow 7 2).2.2 sampleWindow_reachable⟩

/-- C13: for every capacity `size ≥ 1`, every sequence of `Record` calls on `newWindow(size)`,
with arbitrary values and indices (decreasing indices included), returns a window with
`0 ≤ first < size` and `0 ≤ length ≤ size`. -/
theorem C13_structural_invariant (size : Nat) (hsize : 1 ≤ size) (calls : List (Int × Int)) :
    ∃ w, recordAll (newWindow size) calls = some w ∧
      0 ≤ w.first ∧ w.first < (size : Int) ∧ 0 ≤ w.length ∧ w.length ≤ (size : Int) := by
  obtain ⟨w, h1, h2, h3⟩ := recordAll_wf calls (newWindow size) (wf_newWindow size)
  have hsz : w.Size = (size : Int) := by
    rw [h3]; simp [newWindow, window.Size]
  obtain ⟨g1, g2, g3, g4⟩ := h2
  have hne : w.valueList ≠ [] := by
    intro h
    simp [window.Size, h] at hsz
    omega
  have := g4 hne
  exact ⟨w, h1, g1, by omega, g2, by omega⟩

/-- Witness for C13: capacity 2 and a run with a decreasing index. -/
theorem C13_structural_invariant_witness :
    1 ≤ 2 ∧ ∃ w, recordAll (newWindow 2) [(1, 5), (2, 3), (3, 6), (4, 9)] = some w ∧
      0 ≤ w.first ∧ w.first < ((2 : Nat) : Int) ∧ 0 ≤ w.length ∧ w.length ≤ ((2 : Nat) : Int) :=
  ⟨by decide, C13_structural_invariant 2 (by decide) [(1, 5), (2, 3), (3, 6), (4, 9)]⟩

theorem evictLoop_spec (w : window) (hwf : w.wf) (index : Int) :
    ∃ w1, w.evictLoop (w.length.toNat + 1) index = some w1 ∧ w1.wf ∧ w1.Size = w.Size ∧
      w1.occupied = w.occupied.dropWhile (tooOld index w.Size) := by
  obtain ⟨f, n, hw, hn, hf⟩ := wf_nat hwf
  by_cases hs : w.valueList = []
  · have hn0 : n = 0 := by simp [hs] at hn; exact hn
    subst hn0
    refine ⟨w, ?_, hwf, rfl, ?_⟩
    · rw [hw]; simp [window.evictLoop]
    · rw [hw]; simp [window.occupied]
  · obtain ⟨f1, n1, h1, h2, h3, h4⟩ := evictLoop_nat w.valueList index (n + 1) f n (hf hs) (by omega)
    refine ⟨⟨w.valueList, (f1 : Int), (n1 : Int)⟩, ?_, ?_, rfl, ?_⟩
    · rw [hw]; simpa using h1
    · exact wf_of_nat _ _ _ (by omega) (fun _ => h2)
    · rw [h4, ← hw]; rfl

/-- C17: no per-bucket deduplication.  On every reachable window, when the eviction loop of
`Record(value, index)` leaves `length < size`, the call appends the new entry behind the entries
left by the loop, whatever indices those entries carry (equal to `index` included).  With
capacity 2, `Record(5, 0)` then `Record(9, 0)` retains both entries, so `Max() = 9` and
`Min() = 5`. -/
theorem C17_no_deduplication (w : window) (hr : Reachable w) (value index : Int) (w1 : window)
    (hev : w.evictLoop (w.length.toNat + 1) index = some w1) (hroom : w1.length < w1.Size) :
    (∃ w2, w.Record value index = some w2 ∧
      w2.occupied = w1.occupied ++ [{ value := value, index := index }] ∧
      w2.length = w1.length + 1) ∧
    (∃ w3, recordAll (newWindow 2) [(5, 0), (9, 0)] = some w3 ∧
      w3.occupied = [{ value := 5, index := 0 }, { value := 9, index := 0 }] ∧
      w3.Max = some 9 ∧ w3.Min = some 5) := by
  refine ⟨?_, ⟨⟨[⟨5, 0⟩, ⟨9, 0⟩], 0, 2⟩, by decide, by decide, by decide, by decide⟩⟩
  have hwf := Reachable_wf hr
  obtain ⟨w1', g1, g2, g3, g4⟩ := evictLoop_spec w hwf index
  rw [hev] at g1
  cases g1
  obtain ⟨w2, h1, h2, _, h4⟩ := Record_spec w hwf value index
  have hlen : ((w.occupied.dropWhile (tooOld index w.Size)).length : Int) < w.Size := by
    rw [← g4, occupied_length_int w1 g2, ← g3]; exact hroom
  have hocc : w2.occupied = w1.occupied ++ [{ value := value, index := index }] := by
    rw [h4, listRecord, if_pos hlen, g4]
  refine ⟨w2, h1, hocc, ?_⟩
  rw [← occupied_length_int w2 h2, ← occupied_length_int w1 g2, hocc]
  simp

/-- Witness for C17: capacity 2 holding `(5, 0)`, then `Record(9, 0)`. -/
theorem C17_no_deduplication_witness :
    Reachable (⟨[⟨5, 0⟩, ⟨0, 0⟩], 0, 1⟩ : window) ∧
    (⟨[⟨5, 0⟩, ⟨0, 0⟩], 0, 1⟩ : window).evictLoop
      ((⟨[⟨5, 0⟩, ⟨0, 0⟩], 0, 1⟩ : window).length.toNat + 1) 0 = some ⟨[⟨5, 0⟩, ⟨0, 0⟩], 0, 1⟩ ∧
    (⟨[⟨5, 0⟩, ⟨0, 0⟩], 0, 1⟩ : window).length < (⟨[⟨5, 0⟩, ⟨0, 0⟩], 0, 1⟩ : window).Size ∧
    ((∃ w2, (⟨[⟨5, 0⟩, ⟨0, 0⟩], 0, 1⟩ : window).Record 9 0 = some w2 ∧
      w2.occupied = (⟨[⟨5, 0⟩, ⟨0, 0⟩], 0, 1⟩ : window).occupied ++ [{ value := 9, index := 0 }] ∧
      w2.length = (⟨[⟨5, 0⟩, ⟨0, 0⟩], 0, 1⟩ : window).length + 1) ∧
    (∃ w3, recordAll (newWindow 2) [(5, 0), (9, 0)] = some w3 ∧
      w3.occupied = [{ value := 5, index := 0 }, { value := 9, index := 0 }] ∧
      w3.Max = some 9 ∧ w3.Min = some 5)) :=
  ⟨Reachable.record (newWindow 2) _ 5 0 (Reachable.init 2) (by decide), by decide, by decide,
    C17_no_deduplication ⟨[⟨5, 0⟩, ⟨0, 0⟩], 0, 1⟩
      (Reachable.record (newWindow 2) _ 5 0 (Reachable.init 2) (by decide)) 9 0
      ⟨[⟨5, 0⟩, ⟨0, 0⟩], 0, 1⟩ (by decide) (by decide)⟩

theorem tooOld_regression (a : Int) :
    tooOld 3 2 { value := a, index := 5 } = false ∧
      tooOld 6 2 { value := a, index := 5 } = false := by
  have h1 : wrapInt (3 - 2) = 1 := by decide
  have h2 : wrapInt (6 - 2) = 4 := by decide
  simp only [tooOld, h1, h2]
  constructor <;> decide

theorem listRecord_regression (a b c : Int) :
    listRecord 2 a 5 [] = [{ value := a, index := 5 }] ∧
    listRecord 2 b 3 [{ value := a, index := 5 }] =
      [{ value := a, index := 5 }, { value := b, index := 3 }] ∧
    listRecord 2 c 6 [{ value := a, index := 5 }, { value := b, index := 3 }] =
      [{ value := a, index := 5 }, { value := b, index := 3 }] := by
  obtain ⟨h1, h2⟩ := tooOld_regression a
  have hd1 : List.dropWhile (tooOld 3 2) [{ value := a, index := 5 }] =
      [{ value := a, index := 5 }] :=
    List.dropWhile_cons_of_neg (by simp [h1])
  have hd2 : List.dropWhile (tooOld 6 2) [{ value := a, index := 5 }, { value := b, index := 3 }]
      = [{ value := a, index := 5 }, { value := b, index := 3 }] :=
    List.dropWhile_cons_of_neg (by simp [h2])
  refine ⟨?_, ?_, ?_⟩
  · rw [listRecord, if_pos (by simp)]; rfl
  · rw [listRecord, hd1, if_pos (by simp)]; rfl
  · rw [listRecord, hd2, if_neg (by simp)]

theorem recordAll_cons (w w1 : window) (value index : Int) (rest : List (Int × Int))
    (h : w.Record value index = some w1) :
    recordAll w ((value, index) :: rest) = recordAll w1 rest := by
  simp only [recordAll, h]

/-- C18: an index regression breaks eviction.  With capacity 2 and any values `a`, `b`, `c`,
the calls `Record(a, 5)`, `Record(b, 3)`, `Record(c, 6)` return a window that still retains the
entry `(b, 3)`, whose index is `≤ currentIndex - size = 4` (the eviction loop stops at the
older entry `(a, 5)`), and the newest sample `(c, 6)` is dropped: the retained entries are
those held before the third call. -/
theorem C18_index_regression_breaks_eviction (a b c : Int) :
    ∃ w0 w, recordAll (newWindow 2) [(a, 5), (b, 3)] = some w0 ∧
      w0.occupied = [{ value := a, index := 5 }, { value := b, index := 3 }] ∧
      recordAll (newWindow 2) [(a, 5), (b, 3), (c, 6)] = some w ∧
      w.occupied = [{ value := a, index := 5 }, { value := b, index := 3 }] ∧
      (∃ e ∈ w.occupied, e.index ≤ 6 - w.Size) ∧
      ({ value := c, index := 6 } : entry) ∉ w.occupied := by
  obtain ⟨l1, l2, l3⟩ := listRecord_regression a b c
  have hsz0 : (newWindow 2).Size = 2 := by decide
  have hocc0 : (newWindow 2).occupied = [] := by decide
  obtain ⟨w1, h1, hwf1, hs1, ho1⟩ := Record_spec (newWindow 2) (wf_newWindow 2) a 5
  rw [hsz0] at hs1
  rw [hsz0, hocc0, l1] at ho1
  obtain ⟨w2, h2, hwf2, hs2, ho2⟩ := Record_spec w1 hwf1 b 3
  rw [hs1] at hs2
  rw [hs1, ho1, l2] at ho2
  obtain ⟨w3, h3, hwf3, hs3, ho3⟩ := Record_spec w2 hwf2 c 6
  rw [hs2] at hs3
  rw [hs2, ho2, l3] at ho3
  refine ⟨w2, w3, ?_, ho2, ?_, ho3, ⟨⟨b, 3⟩, ?_, ?_⟩, ?_⟩
  · rw [recordAll_cons _ _ _ _ _ h1, recordAll_cons _ _ _ _ _ h2]; rfl
  · rw [recordAll_cons _ _ _ _ _ h1, recordAll_cons _ _ _ _ _ h2, recordAll_cons _ _ _ _ _ h3]
    rfl
  · rw [ho3]; exact List.mem_cons_of_mem _ (List.mem_cons_self _ _)
  · rw [hs3]; show (3 : Int) ≤ 6 - 2; decide
  · rw [ho3]
    intro hmem
    simp only [List.mem_cons, entry.mk.injEq, List.mem_nil_iff, or_false] at hmem
    omega

/-- C20: a window never becomes empty again.  For every reachable window of capacity
`size ≥ 1` and every `(value, index)`, `Record(value, index)` returns a window with
`length ≥ 1`, whether the sample was inserted or dropped, and `Max()` and `Min()` of that window
are values of retained entries. -/
theorem C20_never_empty_again (w : window) (hr : Reachable w) (hsize : 1 ≤ w.Size)
    (value index : Int) :
    ∃ w1, w.Record value index = some w1 ∧ 1 ≤ w1.length ∧
      ∃ mx mn, w1.Max = some mx ∧ w1.Min = some mn ∧
        mx ∈ w1.occupied.map entry.value ∧ mn ∈ w1.occupied.map entry.value := by
  obtain ⟨w1, h1, h2, _, h4⟩ := Record_spec w (Reachable_wf hr) value index
  have hlen : 1 ≤ w1.length := by
    rw [← occupied_length_int w1 h2, h4, listRecord]
    split
    · simp
    · omega
  have hnil := occupied_ne_nil w1 (by omega)
  exact ⟨w1, h1, hlen, scanMax w1.occupied, scanMin w1.occupied, Max_spec w1 h2, Min_spec w1 h2,
    (scanMax_isMaxOf _ hnil).1, (scanMin_isMinOf _ hnil).1⟩

/-- Witness for C20: the full two-slot window holding `(5, 0)` and `(9, 1)`, then a call whose
sample is dropped. -/
theorem C20_never_empty_again_witness :
    Reachable sampleWindow ∧ 1 ≤ sampleWindow.Size ∧
    ∃ w1, sampleWindow.Record 7 1 = some w1 ∧ 1 ≤ w1.length ∧
      ∃ mx mn, w1.Max = some mx ∧ w1.Min = some mn ∧
        mx ∈ w1.occupied.map entry.value ∧ mn ∈ w1.occupied.map entry.value :=
  ⟨sampleWindow_reachable, by decide, C20_never_empty_again sampleWindow sampleWindow_reachable
    (by decide) 7 1⟩

theorem runOps_wf (ops : List op) :
    ∀ w : window, w.wf → ∃ w1, runOps w ops = some w1 ∧ w1.wf := by
  induction ops with
  | nil => intro w hwf; exact ⟨w, rfl, hwf⟩
  | cons o rest ih =>
    intro w hwf
    cases o with
    | record value index =>
      obtain ⟨w1, h1, h2, _, _⟩ := Record_spec w hwf value index
      obtain ⟨w2, g1, g2⟩ := ih w1 h2
      exact ⟨w2, by simp only [runOps, h1, g1], g2⟩
    | max =>
      obtain ⟨w2, g1, g2⟩ := ih w hwf
      exact ⟨w2, by simp only [runOps, Max_spec w hwf, g1], g2⟩
    | min =>
      obtain ⟨w2, g1, g2⟩ := ih w hwf
      exact ⟨w2, by simp only [runOps, Min_spec w hwf, g1], g2⟩

/-- C19: total safety of the core window.  For every capacity `size ≥ 0`, every sequence of
`Record`, `Max` and `Min` calls on `newWindow(size)`, with arbitrary values and indices, runs
to the end without a panic: no slice access is out of range and the modulo of `index` is never
taken with `size = 0`.  In the window reached, `Max()` and `Min()` return, and the eviction loop
of a further `Record` with any index ends within its budget of `length` iterations. -/
theorem C19_total_safety (size : Nat) (ops : List op) :
    ∃ w, runOps (newWindow size) ops = some w ∧
      (∃ mx mn, w.Max = some mx ∧ w.Min = some mn) ∧
      (∀ value index : Int, ∃ w1 w2, w.evictLoop (w.length.toNat + 1) index = some w1 ∧
        w.Record value index = some w2) := by
  obtain ⟨w, h1, h2⟩ := runOps_wf ops (newWindow size) (wf_newWindow size)
  refine ⟨w, h1, ⟨_, _, Max_spec w h2, Min_spec w h2⟩, ?_⟩
  intro value index
  obtain ⟨w1, g1, _⟩ := evictLoop_spec w h2 index
  obtain ⟨w2, g2, _⟩ := Record_spec w h2 value index
  exact ⟨w1, w2, g1, g2⟩

theorem wrapInt_ge (x : Int) (h : x < 2 ^ 63) : x ≤ wrapInt x := by
  unfold wrapInt
  omega

theorem dropWhile_tooOld_sorted (index size : Int) (L : List entry)
    (hs : L.Pairwise (fun a b => a.index ≤ b.index)) :
    ∀ e ∈ L.dropWhile (tooOld index size), wrapInt (index - size) < e.index := by
  induction L with
  | nil => intro e he; simp at he
  | cons x rest ih =>
    obtain ⟨h1, h2⟩ := List.pairwise_cons.mp hs
    by_cases hp : x.index ≤ wrapInt (index - size)
    · rw [List.dropWhile_cons_of_pos (by simpa [tooOld] using hp)]
      exact ih h2
    · rw [List.dropWhile_cons_of_neg (by simpa [tooOld] using hp)]
      intro e he
      rcases List.mem_cons.mp he with he | he
      · rw [he]; omega
      · have := h1 e he
        omega

theorem nondecreasing_run (size : Nat) (calls : List (Int × Int)) :
    calls.Pairwise (fun a b => a.2 ≤ b.2) →
    ∃ w, recordAll (newWindow size) calls = some w ∧ w.wf ∧ w.Size = (size : Int) ∧
      w.occupied.Pairwise (fun a b => a.index ≤ b.index) ∧
      ∀ e ∈ w.occupied, ∃ c ∈ calls, e.index = c.2 := by
  induction calls using List.reverseRecOn with
  | nil =>
    intro _
    refine ⟨newWindow size, rfl, wf_newWindow size, by simp [newWindow, window.Size], ?_, ?_⟩
    · simp [window.occupied, newWindow]
    · intro e he; simp [window.occupied, newWindow] at he
  | append_singleton H c ih =>
    obtain ⟨v, i⟩ := c
    intro hinc
    obtain ⟨hincH, _, hcross⟩ := List.pairwise_append.mp hinc
    obtain ⟨w0, h1, h2, h3, h4, h5⟩ := ih hincH
    obtain ⟨w1, g1, g2, g3, g4⟩ := Record_spec w0 h2 v i
    have hsub : (w0.occupied.dropWhile (tooOld i w0.Size)).Pairwise
        (fun a b => a.index ≤ b.index) :=
      List.Pairwise.sublist (List.dropWhile_sublist _) h4
    have hle : ∀ e ∈ w0.occupied.dropWhile (tooOld i w0.Size), e.index ≤ i := by
      intro e he
      obtain ⟨c, hc, hce⟩ := h5 e ((List.dropWhile_sublist _).subset he)
      rw [hce]
      exact hcross c hc (v, i) (by simp)
    refine ⟨w1, ?_, g2, by rw [g3, h3], ?_, ?_⟩
    · rw [recordAll_append, h1]
      simp only [Option.bind, recordAll, g1]
    · rw [g4, listRecord]
      split
      · rw [List.pairwise_append]
        refine ⟨hsub, by simp, ?_⟩
        intro a ha b hb
        simp only [List.mem_singleton] at hb
        rw [hb]
        exact hle a ha
      · exact hsub
    · intro e he
      rw [g4] at he
      rcases mem_listRecord _ _ _ _ _ he with he | ⟨he, _⟩
      · obtain ⟨c, hc, hce⟩ := h5 e ((List.dropWhile_sublist _).subset he)
        exact ⟨c, List.mem_append_left _ hc, hce⟩
      · exact ⟨(v, i), by simp, by rw [he]⟩

/-- C15: trailing-window invariant.  For every capacity and every sequence of `Record` calls on
`newWindow(size)` whose indices are Go `int`s and non-decreasing across calls, after each call
`Record(value, index)` every retained entry has an index in `[index - size + 1, index]`: no
retained entry is `size` or more buckets older than the newest index presented. -/
theorem C15_trailing_window_invariant (size : Nat) (pre : List (Int × Int)) (value index : Int)
    (hinc : (pre ++ [(value, index)]).Pairwise (fun a b => a.2 ≤ b.2))
    (hint : ∀ c ∈ pre ++ [(value, index)], isGoInt c.2) :
    ∃ w, recordAll (newWindow size) (pre ++ [(value, index)]) = some w ∧
      ∀ e ∈ w.occupied, index - (size : Int) + 1 ≤ e.index ∧ e.index ≤ index := by
  obtain ⟨hincH, _, hcross⟩ := List.pairwise_append.mp hinc
  obtain ⟨w0, h1, h2, h3, h4, h5⟩ := nondecreasing_run size pre hincH
  obtain ⟨w1, g1, _, _, g4⟩ := Record_spec w0 h2 value index
  have hidx : index < 2 ^ 63 := (hint (value, index) (by simp)).2
  refine ⟨w1, ?_, ?_⟩
  · rw [recordAll_append, h1]
    simp only [Option.bind, recordAll, g1]
  · intro e he
    rw [g4, h3] at he
    rcases mem_listRecord _ _ _ _ _ he with he | ⟨he, hlen⟩
    · have hlo := dropWhile_tooOld_sorted index (size : Int) w0.occupied h4 e he
      have hw := wrapInt_ge (index - (size : Int)) (by omega)
      obtain ⟨c, hc, hce⟩ := h5 e ((List.dropWhile_sublist _).subset he)
      have := hcross c hc (value, index) (by simp)
      simp only at this
      constructor <;> omega
    · rw [he]
      simp only
      constructor <;> omega

/-- Witness for C15: capacity 2 and the non-decreasing indices `0, 0, 1, 3, 3`. -/
theorem C15_trailing_window_invariant_witness :
    List.Pairwise (fun a b : Int × Int => a.2 ≤ b.2)
      ([((5 : Int), (0 : Int)), (9, 0), (1, 1), (7, 3)] ++ [(3, 3)]) ∧
    (∀ c ∈ [((5 : Int), (0 : Int)), (9, 0), (1, 1), (7, 3)] ++ [(3, 3)], isGoInt c.2) ∧
    ∃ w, recordAll (newWindow 2) ([(5, 0), (9, 0), (1, 1), (7, 3)] ++ [(3, 3)]) = some w ∧
      ∀ e ∈ w.occupied, 3 - ((2 : Nat) : Int) + 1 ≤ e.index ∧ e.index ≤ 3 :=
  ⟨by decide, by decide,
    C15_trailing_window_invariant 2 [(5, 0), (9, 0), (1, 1), (7, 3)] 3 3 (by decide) (by decide)⟩

/-- C16: order invariant.  For every capacity and every sequence of `Record` calls on
`newWindow(size)` whose indices are non-decreasing across calls, the retained entries, read in
logical order from `first` for `length` slots (wrapping modulo `size`), have non-decreasing
index: the entry of slot `(first + i) mod size` has an index `≤` that of slot
`(first + j) mod size` whenever `0 ≤ i < j < length`. -/
theorem C16_order_invariant (size : Nat) (calls : List (Int × Int))
    (hinc : calls.Pairwise (fun a b => a.2 ≤ b.2)) :
    ∃ w, recordAll (newWindow size) calls = some w ∧
      w.occupied.Pairwise (fun a b => a.index ≤ b.index) ∧
      ∀ i j : Int, 0 ≤ i → i < j → j < w.length →
        ∃ ei ej, w.slot ((w.first + i) % w.Size) = some ei ∧
          w.slot ((w.first + j) % w.Size) = some ej ∧ ei.index ≤ ej.index := by
  obtain ⟨w, h1, h2, _, h4, _⟩ := nondecreasing_run size calls hinc
  refine ⟨w, h1, h4, ?_⟩
  intro i j h0 hij hj
  have hi' : ((i.toNat : Nat) : Int) = i := Int.toNat_of_nonneg h0
  have hj' : ((j.toNat : Nat) : Int) = j := Int.toNat_of_nonneg (by omega)
  have hlen := occupied_length_int w h2
  have hil : i.toNat < w.occupied.length := by omega
  have hjl : j.toNat < w.occupied.length := by omega
  have hsi := slot_occupied w h2 i.toNat (by omega)
  have hsj := slot_occupied w h2 j.toNat (by omega)
  rw [hi'] at hsi
  rw [hj'] at hsj
  refine ⟨w.occupied[i.toNat], w.occupied[j.toNat], ?_, ?_, ?_⟩
  · rw [hsi, List.getElem?_eq_getElem hil]
  · rw [hsj, List.getElem?_eq_getElem hjl]
  · exact (List.pairwise_iff_getElem.mp h4) i.toNat j.toNat hil hjl (by omega)

/-- Witness for C16: capacity 3 and the non-decreasing indices `0, 0, 1, 3, 4`. -/
theorem C16_order_invariant_witness :
    List.Pairwise (fun a b : Int × Int => a.2 ≤ b.2) [(5, 0), (9, 0), (1, 1), (7, 3), (3, 4)] ∧
    ∃ w, recordAll (newWindow 3) [(5, 0), (9, 0), (1, 1), (7, 3), (3, 4)] = some w ∧
      w.occupied.Pairwise (fun a b => a.index ≤ b.index) ∧
      ∀ i j : Int, 0 ≤ i → i < j → j < w.length →
        ∃ ei ej, w.slot ((w.first + i) % w.Size) = some ei ∧
          w.slot ((w.first + j) % w.Size) = some ej ∧ ei.index ≤ ej.index :=
  ⟨by decide, C16_order_invariant 3 [(5, 0), (9, 0), (1, 1), (7, 3), (3, 4)] (by decide)⟩

/-- C4 (amended): when the buffer is full (`length = size`), `index - size` is within the Go
`int` range (the subtraction does not wrap around) and the oldest entry's index is greater than
`index - size`, the call `Record(value, index)` returns the window unchanged: buffer contents,
`first` and `length` are the same, nothing is evicted and the sample is dropped, hence `Max()`
and `Min()` are unchanged.  This holds in particular in every reachable state.  With capacity
1, `Record(5, 0)` followed by `Record(9, 0)` gives `Max() = 5`. -/
theorem C4_drop_on_full (w : window) (value index : Int) (hfull : w.length = w.Size)
    (hrange : isGoInt (index - w.Size))
    (hold : ∃ e, w.slot w.first = some e ∧ index - w.Size < e.index) :
    w.Record value index = some w ∧
      (recordAll (newWindow 1) [(5, 0), (9, 0)]).bind window.Max = some 5 := by
  obtain ⟨e, he, hidx⟩ := hold
  refine ⟨?_, by decide⟩
  apply Record_full_unchanged w value index hfull
  exact ⟨e, he, by rw [wrapInt_eq _ hrange]; exact hidx⟩

/-- C4 fails as stated: the reachable capacity-1 window holding `(5, -2^63)` is full and its
oldest index `-2^63` is greater than `index - size = -2^63 - 1` for `index = -2^63`, but
`index - w.Size()` wraps around to `2^63 - 1`, so `Record(9, -2^63)` evicts the entry and stores
the new sample: the buffer changes and `Max()` becomes 9. -/
theorem C4_counterexample :
    Reachable (⟨[⟨5, -9223372036854775808⟩], 0, 1⟩ : window) ∧
    (⟨[⟨5, -9223372036854775808⟩], 0, 1⟩ : window).length =
      (⟨[⟨5, -9223372036854775808⟩], 0, 1⟩ : window).Size ∧
    (∃ e, (⟨[⟨5, -9223372036854775808⟩], 0, 1⟩ : window).slot
        (⟨[⟨5, -9223372036854775808⟩], 0, 1⟩ : window).first = some e ∧
      -9223372036854775808 - (⟨[⟨5, -9223372036854775808⟩], 0, 1⟩ : window).Size < e.index) ∧
    (⟨[⟨5, -9223372036854775808⟩], 0, 1⟩ : window).Record 9 (-9223372036854775808) =
      some ⟨[⟨9, -9223372036854775808⟩], 0, 1⟩ ∧
    (⟨[⟨5, -9223372036854775808⟩], 0, 1⟩ : window).Record 9 (-9223372036854775808) ≠
      some ⟨[⟨5, -9223372036854775808⟩], 0, 1⟩ ∧
    (recordAll (newWindow 1) [(5, -9223372036854775808), (9, -9223372036854775808)]).bind
      window.Max = some 9 :=
  ⟨Reachable.record (newWindow 1) _ 5 (-9223372036854775808) (Reachable.init 1) (by decide),
    by decide, ⟨⟨5, -9223372036854775808⟩, by decide, by decide⟩, by decide, by decide,
    by decide⟩

/-- Witness for C4: capacity 1 holding `(5, 0)`, then `Record(9, 0)`. -/
theorem C4_drop_on_full_witness :
    (⟨[⟨5, 0⟩], 0, 1⟩ : window).length = (⟨[⟨5, 0⟩], 0, 1⟩ : window).Size ∧
    isGoInt (0 - (⟨[⟨5, 0⟩], 0, 1⟩ : window).Size) ∧
    (∃ e, (⟨[⟨5, 0⟩], 0, 1⟩ : window).slot (⟨[⟨5, 0⟩], 0, 1⟩ : window).first = some e ∧
      0 - (⟨[⟨5, 0⟩], 0, 1⟩ : window).Size < e.index) ∧
    (⟨[⟨5, 0⟩], 0, 1⟩ : window).Record 9 0 = some ⟨[⟨5, 0⟩], 0, 1⟩ ∧
    (recordAll (newWindow 1) [(5, 0), (9, 0)]).bind window.Max = some 5 :=
  ⟨by decide, by decide, ⟨⟨5, 0⟩, by decide, by decide⟩,
    C4_drop_on_full ⟨[⟨5, 0⟩], 0, 1⟩ 9 0 (by decide) (by decide) ⟨⟨5, 0⟩, by decide, by decide⟩⟩

/-- C14 (amended): `Record` refines the list model.  Reading the occupied run of a reachable
window as the list `L` of the slots `(first + i) mod size`, `0 ≤ i < length`, for every
`(value, index)` with `index - size` within the Go `int` range (the subtraction does not wrap
around) the list after `Record(value, index)` is `L' ++ [(value, index)]` if `|L'| < size` and
`L'` otherwise, where `L'` is `L` without its longest prefix of entries with
`entry.index ≤ index - size` (`specRecord`). -/
theorem C14_record_refines_list_model (w : window) (hr : Reachable w) (value index : Int)
    (hrange : isGoInt (index - w.Size)) :
    ∃ w1, w.Record value index = some w1 ∧
      w1.occupied = specRecord w.Size value index w.occupied := by
  obtain ⟨w1, h1, _, _, h4⟩ := Record_spec w (Reachable_wf hr) value index
  refine ⟨w1, h1, ?_⟩
  have hfun : tooOld index w.Size = fun e => decide (e.index ≤ index - w.Size) := by
    funext e; simp [tooOld, wrapInt_eq _ hrange]
  rw [h4, listRecord, specRecord, hfun]

/-- C14 fails as stated: on the reachable capacity-2 window holding `(5, -2^63)`, the call
`Record(3, -2^63 + 1)` computes `index - w.Size()` with a wrap-around to `2^63 - 1`, evicts the
entry and leaves the list `[(3, -2^63 + 1)]`, whereas the list model keeps the entry (its index
is greater than `index - size = -2^63 - 1`) and gives `[(5, -2^63), (3, -2^63 + 1)]`. -/
theorem C14_counterexample :
    Reachable (⟨[⟨5, -9223372036854775808⟩, ⟨0, 0⟩], 0, 1⟩ : window) ∧
    (∃ w1, (⟨[⟨5, -9223372036854775808⟩, ⟨0, 0⟩], 0, 1⟩ : window).Record 3
        (-9223372036854775807) = some w1 ∧
      w1.occupied = [{ value := 3, index := -9223372036854775807 }]) ∧
    specRecord (⟨[⟨5, -9223372036854775808⟩, ⟨0, 0⟩], 0, 1⟩ : window).Size 3
        (-9223372036854775807)
        (⟨[⟨5, -9223372036854775808⟩, ⟨0, 0⟩], 0, 1⟩ : window).occupied =
      [{ value := 5, index := -9223372036854775808 },
        { value := 3, index := -9223372036854775807 }] ∧
    ¬ (∃ w1, (⟨[⟨5, -9223372036854775808⟩, ⟨0, 0⟩], 0, 1⟩ : window).Record 3
        (-9223372036854775807) = some w1 ∧
      w1.occupied = specRecord (⟨[⟨5, -9223372036854775808⟩, ⟨0, 0⟩], 0, 1⟩ : window).Size 3
        (-9223372036854775807)
        (⟨[⟨5, -9223372036854775808⟩, ⟨0, 0⟩], 0, 1⟩ : window).occupied) := by
  have hrec : (⟨[⟨5, -9223372036854775808⟩, ⟨0, 0⟩], 0, 1⟩ : window).Record 3
      (-9223372036854775807) =
      some ⟨[⟨5, -9223372036854775808⟩, ⟨3, -9223372036854775807⟩], 1, 1⟩ := by decide
  have hocc : (⟨[⟨5, -9223372036854775808⟩, ⟨3, -9223372036854775807⟩], 1, 1⟩ : window).occupied
      = [{ value := 3, index := -9223372036854775807 }] := by decide
  have hspec : specRecord (⟨[⟨5, -9223372036854775808⟩, ⟨0, 0⟩], 0, 1⟩ : window).Size 3
        (-9223372036854775807)
        (⟨[⟨5, -9223372036854775808⟩, ⟨0, 0⟩], 0, 1⟩ : window).occupied =
      [{ value := 5, index := -9223372036854775808 },
        { value := 3, index := -9223372036854775807 }] := by decide
  refine ⟨Reachable.record (newWindow 2) _ 5 (-9223372036854775808) (Reachable.init 2)
    (by decide), ⟨_, hrec, hocc⟩, hspec, ?_⟩
  rintro ⟨w1, h1, h2⟩
  rw [hrec] at h1
  cases h1
  rw [hocc, hspec] at h2
  exact absurd h2 (by decide)

/-- Witness for C14: the full two-slot window holding `(5, 0)` and `(9, 1)`, then
`Record(7, 2)`. -/
theorem C14_record_refines_list_model_witness :
    Reachable sampleWindow ∧ isGoInt (2 - sampleWindow.Size) ∧
    ∃ w1, sampleWindow.Record 7 2 = some w1 ∧
      w1.occupied = specRecord sampleWindow.Size 7 2 sampleWindow.occupied :=
  ⟨sampleWindow_reachable, by decide,
    C14_record_refines_list_model sampleWindow sampleWindow_reachable 7 2 (by decide)⟩

theorem specBuckets_eq_ceil (duration granularity : Int) (hg : 0 < granularity) :
    specBuckets duration granularity = ⌈(duration : ℚ) / (granularity : ℚ)⌉ := by
  obtain ⟨g, rfl⟩ := Int.eq_ofNat_of_zero_le (le_of_lt hg)
  have h : -((duration : ℚ) / (((g : Int) : ℚ))) = ((-duration : Int) : ℚ) / ((g : Nat) : ℚ) := by
    push_cast
    ring
  have hc : ⌈(duration : ℚ) / (((g : Int) : ℚ))⌉ = -⌊-((duration : ℚ) / (((g : Int) : ℚ)))⌋ := by
    rw [Int.floor_neg]; ring
  rw [hc, h, Rat.floor_intCast_div_natCast]
  rfl

theorem specBuckets_nat (d g : Nat) (hg : 0 < g) :
    specBuckets (d : Int) (g : Int) = (((d + (g - 1)) / g : Nat) : Int) := by
  unfold specBuckets
  have hdm := Nat.div_add_mod (d + (g - 1)) g
  have hlt := Nat.mod_lt (d + (g - 1)) hg
  have hcast : ((g * ((d + (g - 1)) / g) : Nat) : Int) =
      (g : Int) * (((d + (g - 1)) / g : Nat) : Int) := by push_cast; ring
  have key := ediv_eq_of_bounds (-(d : Int)) (g : Int) (-(((d + (g - 1)) / g : Nat) : Int))
    (by omega)
    (by
      have : -(((d + (g - 1)) / g : Nat) : Int) * (g : Int) =
          -((g * ((d + (g - 1)) / g) : Nat) : Int) := by rw [hcast]; ring
      rw [this]; omega)
    (by
      have : (-(((d + (g - 1)) / g : Nat) : Int) + 1) * (g : Int) =
          -((g * ((d + (g - 1)) / g) : Nat) : Int) + (g : Int) := by rw [hcast]; ring
      rw [this]; omega)
  rw [key]; ring

theorem ceil_small (a b : Nat) (hb : 0 < b) (hab : a ≤ b) :
    (a + (b - 1)) / b = if a = 0 then 0 else 1 := by
  split
  · rename_i h; subst h
    exact Nat.div_eq_of_lt (by omega)
  · rename_i h
    have := ceil_div_eq b a 0 hb (by omega) (by omega)
    simpa using this

theorem f64Ceil_quotient (d g : Nat) (hd : d ≤ 2 ^ 53) (hg0 : 0 < g) (hg : g < 2 ^ 63) :
    f64Ceil (f64Div (f64OfNat d) (f64OfNat g)) = (d + (g - 1)) / g := by
  rw [f64OfNat_exact d hd]
  by_cases hs : g ≤ 2 ^ 53
  · rw [f64OfNat_exact g hs]
    exact f64Ceil_div d g hd hg0 (lt_of_lt_of_le hg (by norm_num))
  · have hg200 : g < 2 ^ 200 := lt_of_lt_of_le hg (by norm_num)
    obtain ⟨h1, h2⟩ := f64OfNat_ge g (by omega) hg200
    have hb100 : f64OfNat g < 2 ^ 100 := by
      calc f64OfNat g ≤ 2 * g := h2
        _ < 2 * 2 ^ 63 := by omega
        _ ≤ 2 ^ 100 := by norm_num
    rw [f64Ceil_div d (f64OfNat g) hd (by omega) hb100,
      ceil_small d (f64OfNat g) (by omega) (by omega), ceil_small d g hg0 (by omega)]

/-- C9 (amended): for every non-negative duration of at most `2^53` ns (the range on which
the conversion to `float64` is exact) and every positive granularity,
`NewTimeWindow(duration, granularity)` returns a time window whose window has `Size()` equal to
`ceil(duration / granularity)`, the exact ceiling of the quotient of the two durations; in
particular granularity 60s and duration 300s give capacity 5. -/
theorem C9_capacity_is_ceiling (duration granularity : Int) (hd0 : 0 ≤ duration)
    (hd : duration ≤ 2 ^ 53) (hg0 : 0 < granularity) (hg : granularity < 2 ^ 63) :
    (∃ t, NewTimeWindow duration granularity = some t ∧
      t.window.Size = specBuckets duration granularity ∧ t.granularity = granularity) ∧
    (∃ t, NewTimeWindow 300000000000 60000000000 = some t ∧ t.window.Size = 5) := by
  refine ⟨?_, ⟨⟨newWindow 5, 60000000000⟩, by decide, by decide⟩⟩
  obtain ⟨d, rfl⟩ := Int.eq_ofNat_of_zero_le hd0
  obtain ⟨g, rfl⟩ := Int.eq_ofNat_of_zero_le (le_of_lt hg0)
  have hd' : d ≤ 2 ^ 53 := by exact_mod_cast hd
  have hg0' : 0 < g := by exact_mod_cast hg0
  have hg' : g < 2 ^ 63 := by exact_mod_cast hg
  have hc := f64Ceil_quotient d g hd' hg0' hg'
  have hle : (d + (g - 1)) / g ≤ d := by
    have : (d + (g - 1)) / g < d + 1 := by
      rw [Nat.div_lt_iff_lt_mul hg0']
      have h1 : d ≤ d * g := Nat.le_mul_of_pos_right _ hg0'
      have h2 : (d + 1) * g = d * g + g := by ring
      omega
    omega
  have hlt : (((d + (g - 1)) / g : Nat) : Int) < 2 ^ 63 := by
    have : (d + (g - 1)) / g ≤ 2 ^ 53 := le_trans hle hd'
    omega
  refine ⟨⟨newWindow ((d + (g - 1)) / g), (g : Int)⟩, ?_, ?_, rfl⟩
  · unfold NewTimeWindow
    rw [if_neg (by omega), if_pos (Or.inl ⟨hd0, hg0⟩)]
    simp only [Int.natAbs_ofNat, hc]
    rw [if_pos hlt]
  · rw [specBuckets_nat d g hg0']
    simp [newWindow, window.Size]

/-- C9 fails as stated: for duration `2^53 + 1` ns and granularity `2^53` ns the conversion
`float64(duration)` rounds to `2^53`, the quotient is `1.0` and `NewTimeWindow` builds a window
of `Size() = 1`, whereas the exact ceiling of the quotient is 2. -/
theorem C9_counterexample :
    (0 : Int) ≤ 9007199254740993 ∧ (0 : Int) < 9007199254740992 ∧
    isGoInt 9007199254740993 ∧ isGoInt 9007199254740992 ∧
    f64OfNat 9007199254740993 = 9007199254740992 ∧
    (NewTimeWindow 9007199254740993 9007199254740992).map (fun t => t.window.Size) = some 1 ∧
    specBuckets 9007199254740993 9007199254740992 = 2 := by
  decide

/-- Witness for C9: duration 90s, granularity 60s, capacity 2. -/
theorem C9_capacity_is_ceiling_witness :
    (0 : Int) ≤ 90000000000 ∧ (90000000000 : Int) ≤ 2 ^ 53 ∧ (0 : Int) < 60000000000 ∧
    (60000000000 : Int) < 2 ^ 63 ∧
    ((∃ t, NewTimeWindow 90000000000 60000000000 = some t ∧
      t.window.Size = specBuckets 90000000000 60000000000 ∧ t.granularity = 60000000000) ∧
    (∃ t, NewTimeWindow 300000000000 60000000000 = some t ∧ t.window.Size = 5)) :=
  ⟨by decide, by decide, by decide, by decide,
    C9_capacity_is_ceiling 90000000000 60000000000 (by decide) (by decide) (by decide)
      (by decide)⟩

end aggregation
